import Mathlib

/-!
# Verification of the node-flatcms content storage engine

Shallow embedding, in Lean 4, of the content storage engine of the
`node-flatcms` repository: the file-backed CRUD layer
(`src/utils/fileHandler.js`), the query helpers (`queryParser.js`), the
version manager (`src/utils/versionHandler.js`), the uniqueness
validator (`src/utils/validator.js`) and the relation resolver
(`getRelatedContent`), together with the restore route of the content
router.

JavaScript values are modelled by the inductive type `JVal`; JavaScript
objects (parsed JSON records) by association lists `Obj`.  JavaScript
numbers are modelled as exact rationals (every JSON-representable double
is a rational); `NaN`, which arises only from `Number(...)` coercion of
non-numeric input, is modelled by `Option ℚ` (`none` = NaN) at the
coercion boundary, never inside stored records.  Timestamps are modelled
as natural numbers (milliseconds since the epoch); the rendering
`isoStr` stands for `Date.prototype.toISOString`, which at millisecond
granularity is an injective, order-preserving encoding — only those
properties of the encoding are used, so its concrete digits are
immaterial and a recoverable encoding is chosen.

Stateful operations are embedded as pure functions from an explicit
state (the current record file plus the per-record version directory) to
the successor state; where a claim is about the *mechanism* of
persistence, the embedding additionally produces an explicit trace of
the filesystem operations performed, in order.
-/

namespace FlatCms

/-- JavaScript runtime values as they occur in this code base:
`undefined`, `null`, booleans, numbers, strings, arrays, and plain
objects (association lists of string keys). -/
inductive JVal : Type where
  | undef : JVal
  | null : JVal
  | bool : Bool → JVal
  | num : ℚ → JVal
  | str : String → JVal
  | arr : List JVal → JVal
  | obj : List (String × JVal) → JVal

/-- A parsed JSON object / JavaScript object literal: an association
list from key to value.  Keys are unique in every object produced by
`JSON.parse` or by the object-literal/spread syntax used in this code
base; the operations below are nevertheless total on arbitrary lists,
with lookup returning the first binding. -/
abbrev Obj := List (String × JVal)

/-- Property access `o[k]`: the first binding of `k`, or `undefined`
when the key is absent (JavaScript yields `undefined` for a missing
property). -/
def jget (o : Obj) (k : String) : JVal :=
  match o.find? (fun p => p.1 = k) with
  | some p => p.2
  | none => JVal.undef

/-- Whether the object has an own property named `k`. -/
def hasKey (o : Obj) (k : String) : Bool :=
  (o.find? (fun p => p.1 = k)).isSome

/-- Spread merge `{...a, ...b}`: bindings of `b` override those of `a`;
bindings of `a` whose key does not occur in `b` are retained. -/
def spread (a b : Obj) : Obj :=
  a.filter (fun p => ¬ hasKey b p.1) ++ b

/-- Object destructuring with rest — `const {k₁: _, …, ...rest} = o` —
removes the listed keys and keeps every other binding. -/
def removeKeys (o : Obj) (ks : List String) : Obj :=
  o.filter (fun p => ¬ ks.contains p.1)

/-- JavaScript truthiness: `undefined`, `null`, `false`, `0` and the
empty string are falsy; every other value (every array and object
included) is truthy. -/
def truthy : JVal → Bool
  | JVal.undef => false
  | JVal.null => false
  | JVal.bool b => b
  | JVal.num q => q ≠ 0
  | JVal.str s => s ≠ ""
  | JVal.arr _ => true
  | JVal.obj _ => true

/-- Millisecond timestamps.  Each `new Date()` in the source is modelled
by an explicit timestamp parameter. -/
abbrev Millis := Nat

/-- Modelled stand-in for `new Date(t).toISOString()`.  The development
relies only on the encoding being injective, order-reflecting and
recoverable (`isoMs` below), which the real millisecond-granular
ISO-8601 string satisfies; the encoding is therefore chosen so that
these properties hold definitionally (timestamp encoded in the length of
the suffix). -/
def isoStr (t : Millis) : String :=
  "1970-01-01T" ++ (List.replicate t '0').asString

/-- Modelled stand-in for `new Date(s).getTime()` on strings produced by
`isoStr`: the left inverse of the encoding. -/
def isoMs (s : String) : Millis :=
  s.length - 11

theorem isoMs_isoStr (t : Millis) : isoMs (isoStr t) = t := by
  have h1 : ∀ l : List Char, l.asString.length = l.length := fun l => rfl
  have h2 : ("1970-01-01T" : String).length = 11 := rfl
  simp [isoMs, isoStr, String.length_append, h1, h2]

theorem isoStr_injective : Function.Injective isoStr := by
  intro a b h
  have := congrArg isoMs h
  simpa [isoMs_isoStr] using this

/-- `new Date(v || 0).getTime()` as used by the version-list sort: a
falsy `versionedAt` yields the epoch (`0`); a timestamp string parses
back to its milliseconds.  Values of other shapes do not occur in
version files written by this code base (they would yield `NaN`;
modelled as `0`, see `listVersions`). -/
def jsDateMs (v : JVal) : Millis :=
  match v with
  | JVal.str s => if s = "" then 0 else isoMs s
  | _ => 0

/-! ## JavaScript primitive coercions

`String(v)`, `Number(v)`, strict equality `===`, loose equality `==`
and the relational comparison `<` as defined by ECMA-262, restricted to
the value algebra `JVal`.  Arrays and objects compare by reference under
`===`/`==`; in every call site of this code base the two operands
originate from distinct parsed JSON documents or literals, so reference
equality of composite values is `false`. -/

/-- Decimal digits of the fractional part of `r / d` (long division),
with fuel.  Exact for every terminating decimal within the fuel; JS
numbers are binary doubles, whose printed form is an idealised exact
decimal in this rational model. -/
def fracDigits : Nat → Nat → Nat → List Char
  | 0, _, _ => []
  | _, 0, _ => []
  | f + 1, r, d =>
      let r10 := r * 10
      Char.ofNat (48 + (r10 / d) % 10) :: fracDigits f (r10 % d) d

/-- Decimal rendering of a rational, standing for JS number-to-string
conversion (idealised to the exact decimal of the rational). -/
def ratRepr (q : ℚ) : String :=
  let sign := if q < 0 then "-" else ""
  let n := q.num.natAbs
  let d := q.den
  let ip := n / d
  let r := n % d
  sign ++ toString ip ++ (if r = 0 then "" else "." ++ (fracDigits 30 r d).asString)

mutual

/-- `String(v)` / template-literal stringification.  Arrays stringify as
their elements joined with `,` (with `null`/`undefined` elements joined
as empty, per `Array.prototype.join`); plain objects as
`[object Object]`. -/
def jsToString : JVal → String
  | JVal.undef => "undefined"
  | JVal.null => "null"
  | JVal.bool b => if b then "true" else "false"
  | JVal.num q => ratRepr q
  | JVal.str s => s
  | JVal.arr xs => String.intercalate "," (jsJoinParts xs)
  | JVal.obj _ => "[object Object]"

/-- The per-element strings of `Array.prototype.join`: `null` and
`undefined` elements join as the empty string. -/
def jsJoinParts : List JVal → List String
  | [] => []
  | JVal.undef :: rest => "" :: jsJoinParts rest
  | JVal.null :: rest => "" :: jsJoinParts rest
  | v :: rest => jsToString v :: jsJoinParts rest

end

/-- Whitespace trim of a character list (the `StringTrim` step of
`ToNumber`). -/
def trimChars (cs : List Char) : List Char :=
  ((cs.dropWhile Char.isWhitespace).reverse.dropWhile Char.isWhitespace).reverse

/-- Digit value of an ASCII digit character. -/
def digitVal? (c : Char) : Option Nat :=
  if '0' ≤ c ∧ c ≤ '9' then some (c.toNat - 48) else none

/-- Longest digit prefix of a character list, with the rest. -/
def takeDigits : List Char → List Nat × List Char
  | [] => ([], [])
  | c :: cs =>
      match digitVal? c with
      | some d =>
          let p := takeDigits cs
          (d :: p.1, p.2)
      | none => ([], c :: cs)

/-- Value of a digit list read in base 10. -/
def digitsToNat (ds : List Nat) : Nat :=
  ds.foldl (fun a d => 10 * a + d) 0

/-- `ToNumber` on strings (`Number(s)`, and the string operand of a
numeric comparison): trimmed empty string is `0`; otherwise an optional
sign followed by decimal digits, an optional fraction and an optional
exponent; anything else is `NaN` (`none`).  (The hexadecimal and
infinity literal forms accepted by full ECMA-262 do not occur in this
code base and are mapped to `NaN`.) -/
def parseJsNumber (s : String) : Option ℚ :=
  let cs := trimChars s.toList
  if cs = [] then some 0
  else
    let signed : Bool × List Char :=
      match cs with
      | '-' :: rest => (true, rest)
      | '+' :: rest => (false, rest)
      | _ => (false, cs)
    let ip := takeDigits signed.2
    let fp : List Nat × List Char :=
      match ip.2 with
      | '.' :: rest => takeDigits rest
      | _ => ([], ip.2)
    if ip.1 = [] ∧ fp.1 = [] then none
    else
      let mant : ℚ := (digitsToNat ip.1 : ℚ) + (digitsToNat fp.1 : ℚ) / (10 ^ fp.1.length : ℚ)
      let exped : Option ℚ :=
        match fp.2 with
        | [] => some mant
        | 'e' :: rest =>
            match rest with
            | '-' :: ds =>
                let p := takeDigits ds
                if p.1 = [] ∨ p.2 ≠ [] then none
                else some (mant / (10 ^ digitsToNat p.1 : ℚ))
            | '+' :: ds =>
                let p := takeDigits ds
                if p.1 = [] ∨ p.2 ≠ [] then none
                else some (mant * (10 ^ digitsToNat p.1 : ℚ))
            | ds =>
                let p := takeDigits ds
                if p.1 = [] ∨ p.2 ≠ [] then none
                else some (mant * (10 ^ digitsToNat p.1 : ℚ))
        | _ => none
      match exped with
      | some m => some (if signed.1 then -m else m)
      | none => none

/-- `Number(v)` (`ToNumber` with composite values going through their
string form): `none` is `NaN`. -/
def jsToNumber : JVal → Option ℚ
  | JVal.undef => none
  | JVal.null => some 0
  | JVal.bool b => some (if b then 1 else 0)
  | JVal.num q => some q
  | JVal.str s => parseJsNumber s
  | JVal.arr xs => parseJsNumber (jsToString (JVal.arr xs))
  | JVal.obj _ => none

/-- Strict equality `===`.  Same-type primitives compare structurally;
different primitive types are unequal; arrays and objects compare by
reference, which is `false` for the never-aliased operands of this code
base (see the section comment).  `NaN` cannot occur among `JVal`
numbers. -/
def jsStrictEq : JVal → JVal → Bool
  | JVal.undef, JVal.undef => true
  | JVal.null, JVal.null => true
  | JVal.bool a, JVal.bool b => a = b
  | JVal.num a, JVal.num b => a = b
  | JVal.str a, JVal.str b => a = b
  | _, _ => false

/-- Whether the value is an array or a plain object. -/
def isComposite : JVal → Bool
  | JVal.arr _ => true
  | JVal.obj _ => true
  | _ => false

/-- Loose equality of primitive operands that are numbers or strings
(the residual cases of `==` after `undefined`/`null`, booleans and
composites have been dispatched). -/
def loosePrimEq : JVal → JVal → Bool
  | JVal.num a, JVal.num b => a = b
  | JVal.str a, JVal.str b => a = b
  | JVal.num a, JVal.str t =>
      match parseJsNumber t with
      | some q => a = q
      | none => false
  | JVal.str s, JVal.num b =>
      match parseJsNumber s with
      | some q => q = b
      | none => false
  | _, _ => false

/-- Loose equality `==` (ECMA-262 abstract equality): `undefined` and
`null` are loosely equal exactly to each other; booleans convert to
numbers; a composite compared to a primitive converts via `ToPrimitive`
(its string form); two composites compare by reference (`false` here,
operands never aliased in this code base); the remaining number/string
cases convert the string side to a number, where a non-numeric string
yields `NaN` and compares unequal to everything. -/
def jsLooseEq (a b : JVal) : Bool :=
  match a, b with
  | JVal.undef, JVal.undef => true
  | JVal.undef, JVal.null => true
  | JVal.null, JVal.undef => true
  | JVal.null, JVal.null => true
  | JVal.undef, _ => false
  | _, JVal.undef => false
  | JVal.null, _ => false
  | _, JVal.null => false
  | a, b =>
      let a1 := match a with
        | JVal.bool x => JVal.num (if x then 1 else 0)
        | v => v
      let b1 := match b with
        | JVal.bool y => JVal.num (if y then 1 else 0)
        | v => v
      if isComposite a1 ∧ isComposite b1 then false
      else
        let a2 := if isComposite a1 then JVal.str (jsToString a1) else a1
        let b2 := if isComposite b1 then JVal.str (jsToString b1) else b1
        loosePrimEq a2 b2

/-- Whether the value is a string. -/
def isStr : JVal → Bool
  | JVal.str _ => true
  | _ => false

/-- The underlying string of a string value (`""` otherwise; only
applied under an `isStr` guard). -/
def strVal : JVal → String
  | JVal.str s => s
  | _ => ""

/-- Numeric comparison of two values, `false` when either side is
`NaN`. -/
def numLt (x y : JVal) : Bool :=
  match jsToNumber x, jsToNumber y with
  | some p, some q => p < q
  | _, _ => false

/-- The relational comparison `a < b`: both operands go through
`ToPrimitive`; two strings compare lexicographically, otherwise both
convert to numbers and any `NaN` makes the comparison `false`. -/
def jsLt (a b : JVal) : Bool :=
  let pa := if isComposite a then JVal.str (jsToString a) else a
  let pb := if isComposite b then JVal.str (jsToString b) else b
  if isStr pa && isStr pb then strVal pa < strVal pb
  else numLt pa pb

/-- `a > b`, which ECMA-262 defines via the same algorithm with the
operands swapped. -/
def jsGt (a b : JVal) : Bool :=
  jsLt b a

/-! ## Query engine (`src/utils/queryParser.js`) -/

/-- Case folding of `String.prototype.toLowerCase` (ASCII-faithful). -/
def lowerStr (s : String) : String :=
  (s.toList.map Char.toLower).asString

/-- Substring containment: `hay.includes(needle)`. -/
def substrB (needle hay : String) : Bool :=
  decide (needle.toList <:+: hay.toList)

/-- `container.includes(x)` for a string argument `x`: array membership
by `SameValueZero` (which coincides with `===` here), or substring
search when the container is a string.  A container of any other shape
has no `includes` method and the source would throw; that shape is
unreachable from `parseQuery`, which builds the `in` filter value by
splitting a string on commas. -/
def jsIncludes (container : JVal) (s : String) : Bool :=
  match container with
  | JVal.arr fs => fs.any (fun f => jsStrictEq f (JVal.str s))
  | JVal.str t => substrB s t
  | _ => false

/-- `matchesCondition(value, operator, filterValue)` from
`queryParser.js` lines 353–389: `eq`/`ne` use loose equality `==`/`!=`;
the four numeric operators coerce both sides with `Number(...)` (a `NaN`
on either side fails the comparison); `in` checks membership, testing
every element of an array-valued field; `contains` is case-insensitive
substring match, against any element for an array-valued field; an
unknown operator matches. -/
def matchesCondition (value : JVal) (operator : String) (filterValue : JVal) : Bool :=
  if operator = "eq" then jsLooseEq value filterValue
  else if operator = "ne" then ! jsLooseEq value filterValue
  else if operator = "gt" then
    match jsToNumber value, jsToNumber filterValue with
    | some a, some b => a > b
    | _, _ => false
  else if operator = "gte" then
    match jsToNumber value, jsToNumber filterValue with
    | some a, some b => a ≥ b
    | _, _ => false
  else if operator = "lt" then
    match jsToNumber value, jsToNumber filterValue with
    | some a, some b => a < b
    | _, _ => false
  else if operator = "lte" then
    match jsToNumber value, jsToNumber filterValue with
    | some a, some b => a ≤ b
    | _, _ => false
  else if operator = "in" then
    match value with
    | JVal.arr vs => vs.any (fun v => jsIncludes filterValue (jsToString v))
    | v => jsIncludes filterValue (jsToString v)
  else if operator = "contains" then
    match value with
    | JVal.arr vs =>
        vs.any (fun v => substrB (lowerStr (jsToString filterValue)) (lowerStr (jsToString v)))
    | v => substrB (lowerStr (jsToString filterValue)) (lowerStr (jsToString v))
  else true

/-- Property access on an arbitrary value, as performed by
`getNestedValue`: objects by key, arrays by canonical numeric index,
strings expose `length`; property access on other primitives yields
`undefined`. -/
def propGet (v : JVal) (k : String) : JVal :=
  match v with
  | JVal.obj o => jget o k
  | JVal.arr xs =>
      match k.toNat? with
      | some n => xs.getD n JVal.undef
      | none => if k = "length" then JVal.num xs.length else JVal.undef
  | JVal.str s => if k = "length" then JVal.num s.length else JVal.undef
  | _ => JVal.undef

/-- `path.split('.')` on the character level: split at every dot (an
empty path yields one empty segment, as in JavaScript). -/
def splitDots : List Char → List (List Char)
  | [] => [[]]
  | c :: cs =>
      if c = '.' then [] :: splitDots cs
      else
        match splitDots cs with
        | seg :: segs => (c :: seg) :: segs
        | [] => [[c]]

/-- `getNestedValue(obj, path)`: dot-path traversal; a falsy
intermediate value short-circuits to `undefined`. -/
def getNestedValue (o : Obj) (path : String) : JVal :=
  ((splitDots path.toList).map List.asString).foldl
    (fun cur k => if truthy cur then propGet cur k else JVal.undef)
    (JVal.obj o)

/-- Whether the sort comparator treats the value as absent
(`undefined` or `null`). -/
def isMissing (v : JVal) : Bool :=
  match v with
  | JVal.undef => true
  | JVal.null => true
  | _ => false

/-- The comparator passed to `items.sort` by `sortItems`: an
absent-valued left operand sorts with `-1`/`1` according to direction,
then the right operand likewise, then the relational comparison of the
two values, reversed when descending. -/
def sortCompare (field : String) (isDesc : Bool) (a b : Obj) : ℤ :=
  let av := getNestedValue a field
  let bv := getNestedValue b field
  if isMissing av then (if isDesc then -1 else 1)
  else if isMissing bv then (if isDesc then 1 else -1)
  else if jsLt av bv then (if isDesc then 1 else -1)
  else if jsGt av bv then (if isDesc then -1 else 1)
  else 0

/-- Insert `x` after every element `y` of the (already processed) list
with `le y x` — the insertion step of a stable sort. -/
def insStable (le : α → α → Bool) : List α → α → List α
  | [], x => [x]
  | y :: ys, x => if le y x then y :: insStable le ys x else x :: y :: ys

/-- Stable sort by insertion, processing the input left to right. -/
def stableSortLe (le : α → α → Bool) (l : List α) : List α :=
  l.foldl (insStable le) []

/-- `Array.prototype.sort(cmp)`.  ES2019 requires the sort to be stable,
and for a consistent comparator the stable sorted permutation is unique,
so a stable insertion sort is a faithful model; for an inconsistent
comparator ECMA-262 leaves the order implementation-defined, and this
embedding fixes the same stable algorithm. -/
def jsSortBy (cmp : α → α → ℤ) (l : List α) : List α :=
  stableSortLe (fun a b => cmp a b ≤ 0) l

/-- `sortItems(items, sortConfig)`: no sorting without a (truthy) sort
field; otherwise sort with `sortCompare`, descending exactly when the
direction is the string `desc`. -/
def sortItems (items : List Obj) (field direction : String) : List Obj :=
  if field = "" then items
  else jsSortBy (sortCompare field (direction = "desc")) items

/-- `paginateItems(items, limit, offset)`: an offset-then-limit slice;
a `null` limit slices to the end. -/
def paginateItems (items : List α) (limit : Option Nat) (offset : Nat) : List α :=
  match limit with
  | none => items.drop offset
  | some l => (items.drop offset).take l

/-! ## Version manager (`src/utils/versionHandler.js`) and content store
(`src/utils/fileHandler.js`)

The on-disk state of one `(type, id)` pair is the current record file
(`Option Obj`) and its versions directory, modelled as the list of
version files in enumeration order: `(file stem, parsed contents)`
pairs.  The directory only ever holds files written by `createVersion`,
so every entry is a parsable `.json` file (the source skips other
files when listing). -/

/-- Whether the value is `undefined` (the `!== undefined` tests). -/
def isUndef (v : JVal) : Bool :=
  match v with
  | JVal.undef => true
  | _ => false

def contentDir : String := "content"

/-- `<contentDir>/<type>/<id>.json` — the current record file. -/
def recordPath (type id : String) : String :=
  contentDir ++ "/" ++ type ++ "/" ++ id ++ ".json"

/-- `<contentDir>/<type>/<id>/versions` — the history directory. -/
def versionsDir (type id : String) : String :=
  contentDir ++ "/" ++ type ++ "/" ++ id ++ "/versions"

/-- Path of one version file inside the history directory. -/
def versionPath (type id stem : String) : String :=
  versionsDir type id ++ "/" ++ stem ++ ".json"

/-- A versions directory: file stem and parsed contents of each `.json`
file, in enumeration order. -/
abbrev VersionDir := List (String × Obj)

/-- The template-literal `` `${version.versionId}` `` used to build a
version file path for removal. -/
def vidStr (o : Obj) : String :=
  jsToString (jget o "versionId")

/-- `fs.writeJson` into the directory: overwrite the file of the same
stem if present, else create a new one. -/
def dirWrite (d : VersionDir) (stem : String) (v : Obj) : VersionDir :=
  if d.any (fun e => e.1 = stem) then
    d.map (fun e => if e.1 = stem then (stem, v) else e)
  else d ++ [(stem, v)]

/-- The version object written by `createVersion`: the snapshot content
with a fresh `versionId` (filesystem-safe encoding of the first clock
reading `t1`) and `versionedAt` (second clock reading `t2`; the source
calls `new Date()` twice). -/
def versionSnapshot (content : Obj) (t1 t2 : Millis) : Obj :=
  spread content
    [("versionId", JVal.str ("v" ++ isoStr t1)),
     ("versionedAt", JVal.str (isoStr t2))]

/-- `listVersions(type, id)`: the parsed version files sorted by
`versionedAt` descending — the comparator is `bTime - aTime` over
`new Date(versionedAt || 0).getTime()`. -/
def listVersions (d : VersionDir) : List Obj :=
  jsSortBy
    (fun a b => (jsDateMs (jget b "versionedAt") : ℤ) - (jsDateMs (jget a "versionedAt") : ℤ))
    (d.map Prod.snd)

/-- `cleanupOldVersions(type, id, keepCount)`: list (sorted newest
first), keep the first `keepCount`, remove the file of every later one
by its `versionId`-derived path (best-effort; `fs.remove` of a missing
path is a silent no-op). -/
def cleanupOldVersions (d : VersionDir) (keepCount : Nat) : VersionDir :=
  if (listVersions d).length ≤ keepCount then d
  else d.filter (fun e => ¬ (((listVersions d).drop keepCount).map vidStr).contains e.1)

/-- `createVersion(type, id, content)`: write the augmented snapshot,
then prune to the 10 most recent.  Returns the new directory state and
the version object. -/
def createVersion (d : VersionDir) (content : Obj) (t1 t2 : Millis) : VersionDir × Obj :=
  (cleanupOldVersions (dirWrite d ("v" ++ isoStr t1) (versionSnapshot content t1 t2)) 10,
   versionSnapshot content t1 t2)

/-- `deleteAllVersions(type, id)`: the whole history directory is
removed; absence is not an error. -/
def deleteAllVersions (_d : VersionDir) : VersionDir := []

/-- `getVersion(type, id, versionId)`: read
`<versions>/<versionId>.json`, `null` when absent. -/
def getVersion (d : VersionDir) (versionId : String) : Option Obj :=
  (d.find? (fun e => e.1 = versionId)).map Prod.snd

/-- On-disk state of one `(type, id)` pair. -/
structure RecState where
  cur : Option Obj
  versions : VersionDir

/-- `const newStatus = data.status !== undefined ? data.status :
existing.status`. -/
def newStatusOf (existing data : Obj) : JVal :=
  if isUndef (jget data "status") then jget existing "status" else jget data "status"

/-- The `publishedAt` value computed by `updateContent` lines 166–176:
start from the existing value; if the new status is `published` and the
current value is falsy, take the current time; an explicitly supplied
`data.publishedAt` wins outright. -/
def pubOf (existing data : Obj) (now : Millis) : JVal :=
  let pub0 := jget existing "publishedAt"
  let pub1 :=
    if jsStrictEq (newStatusOf existing data) (JVal.str "published") && ! truthy pub0
    then JVal.str (isoStr now) else pub0
  if isUndef (jget data "publishedAt") then pub1 else jget data "publishedAt"

/-- Lines 162–186 of `updateContent`: compute the new status (an
explicit `data.status` wins, else unchanged), compute `publishedAt`
(`pubOf`), then build `{...existing, ...data, id, status, updatedAt,
...(publishedAt && {publishedAt})}`. -/
def mergeUpdate (existing data : Obj) (id : String) (now : Millis) : Obj :=
  spread (spread existing data)
    ([("id", JVal.str id), ("status", newStatusOf existing data),
      ("updatedAt", JVal.str (isoStr now))]
      ++ (if truthy (pubOf existing data now) then [("publishedAt", pubOf existing data now)] else []))

/-- `updateContent(type, id, data)`: `null` when no current record
exists; otherwise snapshot the pre-update state (best-effort), merge,
and persist the result as the new current record. -/
def updateContent (st : RecState) (id : String) (data : Obj) (now t1 t2 : Millis) :
    RecState × Option Obj :=
  match st.cur with
  | none => (st, none)
  | some existing =>
      let d1 := (createVersion st.versions existing t1 t2).1
      let updated := mergeUpdate existing data id now
      (⟨some updated, d1⟩, some updated)

/-- Outcome of `fs.remove(path)`: fs-extra's `remove` (rimraf
semantics) resolves successfully whether or not the path exists — a
missing path is a silent no-op, never an `ENOENT` rejection. -/
def fsRemoveOutcome : Except String Unit := Except.ok ()

/-- `deleteContent(type, id)`: remove the record file, cascade to the
version history (best-effort), return `true`; the `catch` branch
translating `ENOENT` to `false` is kept from the source — it is
unreachable because `fsRemoveOutcome` never rejects with `ENOENT`. -/
def deleteContent (st : RecState) : Except String (RecState × Bool) :=
  match fsRemoveOutcome with
  | Except.ok _ => Except.ok (⟨none, deleteAllVersions st.versions⟩, true)
  | Except.error e => if e = "ENOENT" then Except.ok (st, false) else Except.error e

/-- The restore route (`routes/content.js`,
`POST /:type/:id/restore/:versionId`): 404 when the record or the
version is absent; otherwise strip `versionId`/`versionedAt` from the
version and `updateContent` with the remainder. -/
def restoreVersion (st : RecState) (id versionId : String) (now t1 t2 : Millis) :
    Option (RecState × Obj) :=
  match st.cur with
  | none => none
  | some _ =>
      match getVersion st.versions versionId with
      | none => none
      | some version =>
          let restoredData := removeKeys version ["versionId", "versionedAt"]
          match updateContent st id restoredData now t1 t2 with
          | (st1, some restored) => some (st1, restored)
          | (_, none) => none

/-! ## Filesystem-operation traces

For the claim about the persistence *mechanism* of `updateContent`, the
sequence of filesystem calls the operation performs, in order. -/

/-- One filesystem call. -/
inductive FsOp : Type where
  | ensureDir : String → FsOp
  | pathExists : String → FsOp
  | readdir : String → FsOp
  | readJson : String → FsOp
  | writeJson : String → FsOp
  | rename : String → String → FsOp
  | remove : String → FsOp
deriving DecidableEq

/-- Whether the call is a rename. -/
def FsOp.isRename : FsOp → Bool
  | FsOp.rename _ _ => true
  | _ => false

/-- Calls performed by `listVersions`: existence check, enumeration,
one read per file. -/
def listVersionsTrace (type id : String) (d : VersionDir) : List FsOp :=
  [FsOp.pathExists (versionsDir type id), FsOp.readdir (versionsDir type id)]
    ++ d.map (fun e => FsOp.readJson (versionPath type id e.1))

/-- Calls performed by `cleanupOldVersions`: a listing, then one remove
per pruned version. -/
def cleanupTrace (type id : String) (d : VersionDir) (keepCount : Nat) : List FsOp :=
  listVersionsTrace type id d
    ++ (let versions := listVersions d
        if versions.length ≤ keepCount then []
        else (versions.drop keepCount).map
          (fun v => FsOp.remove (versionPath type id (vidStr v))))

/-- Calls performed by `createVersion`: ensure the directory, write the
snapshot, clean up. -/
def createVersionTrace (type id : String) (d : VersionDir) (content : Obj) (t1 t2 : Millis) :
    List FsOp :=
  let stem := "v" ++ isoStr t1
  [FsOp.ensureDir (versionsDir type id), FsOp.writeJson (versionPath type id stem)]
    ++ cleanupTrace type id (dirWrite d stem (versionSnapshot content t1 t2)) 10

/-- Calls performed by `updateContent`: existence check and read of the
record file, the version snapshot calls, then a single `fs.writeJson`
directly at the record path — the final persistence step. -/
def updateContentTrace (type id : String) (st : RecState) (t1 t2 : Millis) : List FsOp :=
  match st.cur with
  | none => [FsOp.pathExists (recordPath type id)]
  | some existing =>
      [FsOp.pathExists (recordPath type id), FsOp.readJson (recordPath type id)]
        ++ createVersionTrace type id st.versions existing t1 t2
        ++ [FsOp.writeJson (recordPath type id)]

/-! ## Uniqueness validator (`src/utils/validator.js`)

The set of unique fields comes from the external schema provider
(`getUniqueFields`); it is passed in explicitly, as is the snapshot of
existing records that `validateUniqueness` obtains from
`listContent`. -/

/-- One entry of the `errors` array built by `validateUniqueness`. -/
structure UniqueError : Type where
  message : String
  path : String
  field : String
  value : JVal

/-- The result shape `{valid, errors}`. -/
structure ValidationResult : Type where
  valid : Bool
  errors : List UniqueError

/-- The per-record value comparison of `validateUniqueness`: two
strings compare case-insensitively via `toLowerCase`; any other pair
uses `===` (composite values are distinct references here — the
candidate comes from the request body, the items from disk). -/
def isDuplicateOf (fieldValue itemValue : JVal) : Bool :=
  match fieldValue, itemValue with
  | JVal.str a, JVal.str b => lowerStr a = lowerStr b
  | a, b => jsStrictEq a b

/-- The error object pushed for a violated field. -/
def uniqueError (type f : String) (v : JVal) : UniqueError :=
  { message := "Field \x27" ++ f ++ "\x27 must be unique. A " ++ type ++ " with " ++ f
      ++ "=\x27" ++ jsToString v ++ "\x27 already exists."
    path := "/" ++ f
    field := f
    value := v }

/-- `validateUniqueness(type, data, excludeId)`: for each unique field,
skip when the candidate value is `undefined` or `null`; otherwise scan
all existing records — excluding, when `excludeId` is truthy, the record
whose `id` strictly equals it — for the first duplicate, and push one
error per violated field.  Valid exactly when no errors were
collected. -/
def validateUniqueness (type : String) (uniqueFields : List String) (allItems : List Obj)
    (data : Obj) (excludeId : JVal) : ValidationResult :=
  if uniqueFields = [] then ⟨true, []⟩
  else
    let errors := uniqueFields.foldl (fun errs f =>
      let fieldValue := jget data f
      if isUndef fieldValue || jsStrictEq fieldValue JVal.null then errs
      else
        match allItems.find? (fun item =>
          if truthy excludeId && jsStrictEq (jget item "id") excludeId then false
          else isDuplicateOf fieldValue (jget item f)) with
        | some _ => errs ++ [uniqueError type f fieldValue]
        | none => errs) []
    if errors.isEmpty then ⟨true, []⟩ else ⟨false, errors⟩

/-! ## Relation resolver (`getRelatedContent`, `fileHandler.js`
lines 224–308) -/

/-- One entry of the `related` accumulator: `{item, score, reason}`. -/
structure ScoredRel : Type where
  item : Obj
  score : ℤ
  reason : String

/-- First pass: for each other item whose `tags` is an array sharing at
least one tag with the target (membership by `includes`, i.e. `===`),
push an entry scored with the number of shared tags. -/
def relPhase1 (content : Obj) (id : String) (items : List Obj) : List ScoredRel :=
  match jget content "tags" with
  | JVal.arr ts =>
      if ts.length > 0 then
        items.foldl (fun acc item =>
          if ! jsStrictEq (jget item "id") (JVal.str id) then
            match jget item "tags" with
            | JVal.arr its =>
                let common := ts.filter (fun t => its.any (fun u => jsStrictEq u t))
                if common.length > 0 then acc ++ [⟨item, common.length, "tags"⟩] else acc
            | _ => acc
          else acc) []
      else []
  | _ => []

/-- `related.find(r => r.item.id === item.id)` followed by
`existing.score += 1`: bump the first entry with a matching item id. -/
def bumpFirst : List ScoredRel → Obj → Option (List ScoredRel)
  | [], _ => none
  | r :: rs, item =>
      if jsStrictEq (jget r.item "id") (jget item "id") then
        some ({ r with score := r.score + 1 } :: rs)
      else (bumpFirst rs item).map (r :: ·)

/-- Push a fresh entry with score 1, or bump an existing one. -/
def addOrBump (acc : List ScoredRel) (item : Obj) (reason : String) : List ScoredRel :=
  match bumpFirst acc item with
  | some acc1 => acc1
  | none => acc ++ [⟨item, 1, reason⟩]

/-- Second pass: category equality (`===`) with the target, when the
target has a truthy category. -/
def relPhase2 (content : Obj) (id : String) (items : List Obj) (acc : List ScoredRel) :
    List ScoredRel :=
  if truthy (jget content "category") then
    items.foldl (fun acc item =>
      if ! jsStrictEq (jget item "id") (JVal.str id)
          && jsStrictEq (jget item "category") (jget content "category")
      then addOrBump acc item "category" else acc) acc
  else acc

/-- The recognized relation-field names. -/
def relationFields : List String := ["related", "relations", "references", "linked"]

/-- The `references` list extracted from a relation field value: the
array itself, a singleton for a string, the `id` of an object exposing a
truthy one, else empty. -/
def refsOf (v : JVal) : List JVal :=
  match v with
  | JVal.arr xs => xs
  | JVal.str s => [JVal.str s]
  | JVal.obj o => if truthy (jget o "id") then [jget o "id"] else []
  | _ => []

/-- `typeof ref === 'object'` (true for objects, arrays and `null`). -/
def isTypeofObject (r : JVal) : Bool :=
  match r with
  | JVal.obj _ => true
  | JVal.arr _ => true
  | JVal.null => true
  | _ => false

/-- `ref.id`.  On a `null` ref the source throws a `TypeError` (the
request fails and returns no items); modelled as `undefined`, which
falsifies the surrounding disjunct, so the model agrees with the source
on every run that returns a result. -/
def refIdProp (r : JVal) : JVal :=
  match r with
  | JVal.obj o => jget o "id"
  | _ => JVal.undef

/-- `references.includes(id) || references.some(ref => (typeof ref ===
'object' && ref.id === id) || ref === id)`. -/
def refHit (refs : List JVal) (id : String) : Bool :=
  refs.any (fun r => jsStrictEq r (JVal.str id))
    || refs.any (fun r =>
        (isTypeofObject r && jsStrictEq (refIdProp r) (JVal.str id))
          || jsStrictEq r (JVal.str id))

/-- Third pass: for each relation field and each other item with a
truthy value there, score a back-reference to the target id. -/
def relPhase3 (id : String) (items : List Obj) (acc : List ScoredRel) : List ScoredRel :=
  relationFields.foldl (fun acc field =>
    items.foldl (fun acc item =>
      if ! jsStrictEq (jget item "id") (JVal.str id) && truthy (jget item field) then
        if refHit (refsOf (jget item field)) id then addOrBump acc item "relation" else acc
      else acc) acc) acc

/-- The full `related` accumulator after the three passes. -/
def relatedEntries (content : Obj) (id : String) (items : List Obj) : List ScoredRel :=
  relPhase3 id items (relPhase2 content id items (relPhase1 content id items))

/-- `getRelatedContent(type, id, options)`: empty result when the target
record is absent; otherwise score, sort by score descending, project the
items, and paginate.  Returns the page and the reported `total`. -/
def getRelatedContent (content : Option Obj) (id : String) (allItems : List Obj)
    (limit : Option Nat) (offset : Nat) : List Obj × Nat :=
  match content with
  | none => ([], 0)
  | some c =>
      (paginateItems
        ((jsSortBy (fun a b => b.score - a.score) (relatedEntries c id allItems)).map
          (fun r => r.item)) limit offset,
       ((jsSortBy (fun a b => b.score - a.score) (relatedEntries c id allItems)).map
          (fun r => r.item)).length)

/-! ## Lemma layer: object access -/

theorem find?_filter_of_imp (l : List α) (p q : α → Bool)
    (h : ∀ x, p x = true → q x = true) :
    (l.filter q).find? p = l.find? p := by
  induction l with
  | nil => rfl
  | cons x xs ih =>
      by_cases hq : q x = true
      · by_cases hp : p x = true
        · simp [List.filter_cons, hq, List.find?_cons, hp]
        · simp only [Bool.not_eq_true] at hp
          simp [List.filter_cons, hq, List.find?_cons, hp, ih]
      · simp only [Bool.not_eq_true] at hq
        have hp : p x = false := by
          cases hpx : p x with
          | false => rfl
          | true => exact absurd (h x hpx) (by simp [hq])
        simp [List.filter_cons, hq, List.find?_cons, hp, ih]

theorem find?_filter_keyFree (a : Obj) (q : String × JVal → Bool) (k : String)
    (h : ∀ x : String × JVal, x.1 = k → q x = true) :
    (a.filter q).find? (fun p => p.1 = k) = a.find? (fun p => p.1 = k) := by
  apply find?_filter_of_imp
  intro x hx
  simp only [decide_eq_true_eq] at hx
  exact h x hx

theorem find?_filter_keyKilled (a : Obj) (q : String × JVal → Bool) (k : String)
    (h : ∀ x : String × JVal, x.1 = k → q x = false) :
    (a.filter q).find? (fun p => p.1 = k) = none := by
  rw [List.find?_eq_none]
  intro x hx
  simp only [List.mem_filter] at hx
  simp only [decide_eq_true_eq]
  intro hxk
  have hq := h x hxk
  rw [hx.2] at hq
  exact Bool.true_eq_false ▸ hq.symm ▸ (by simp at hq)

theorem jget_spread (a b : Obj) (k : String) :
    jget (spread a b) k = if hasKey b k then jget b k else jget a k := by
  by_cases hb : hasKey b k = true
  · rw [if_pos hb]
    show jget (a.filter (fun p => ¬ hasKey b p.1) ++ b) k = jget b k
    unfold jget
    rw [List.find?_append, find?_filter_keyKilled]
    · simp
    · intro x hx
      rw [hx]
      simp [hb]
  · simp only [Bool.not_eq_true] at hb
    rw [if_neg (by simp [hb])]
    show jget (a.filter (fun p => ¬ hasKey b p.1) ++ b) k = jget a k
    unfold jget
    rw [List.find?_append, find?_filter_keyFree]
    · have hfb : b.find? (fun p => p.1 = k) = none := by
        unfold hasKey at hb
        cases hfb : b.find? (fun p => p.1 = k) with
        | none => rfl
        | some v => rw [hfb] at hb; simp at hb
      rw [hfb]
      cases a.find? (fun p => p.1 = k) <;> simp
    · intro x hx
      rw [hx]
      simp [hb]

theorem hasKey_append (a b : Obj) (k : String) :
    hasKey (a ++ b) k = (hasKey a k || hasKey b k) := by
  unfold hasKey
  rw [List.find?_append]
  cases hfa : a.find? (fun p => p.1 = k) <;> simp

theorem hasKey_filter_keyFree (a : Obj) (q : String × JVal → Bool) (k : String)
    (h : ∀ x : String × JVal, x.1 = k → q x = true) :
    hasKey (a.filter q) k = hasKey a k := by
  unfold hasKey
  rw [find?_filter_keyFree a q k h]

theorem hasKey_spread (a b : Obj) (k : String) :
    hasKey (spread a b) k = (hasKey a k || hasKey b k) := by
  show hasKey (a.filter (fun p => ¬ hasKey b p.1) ++ b) k = _
  rw [hasKey_append]
  by_cases hb : hasKey b k = true
  · simp [hb]
  · simp only [Bool.not_eq_true] at hb
    simp only [hb, Bool.or_false]
    rw [hasKey_filter_keyFree]
    intro x hx
    rw [hx]
    simp [hb]

theorem jget_eq_undef_of_hasKey_false (o : Obj) (k : String) (h : hasKey o k = false) :
    jget o k = JVal.undef := by
  unfold hasKey at h
  unfold jget
  cases hf : o.find? (fun p => p.1 = k) with
  | none => rfl
  | some v => rw [hf] at h; simp at h

theorem jget_removeKeys (o : Obj) (ks : List String) (k : String) :
    jget (removeKeys o ks) k = if ks.contains k then JVal.undef else jget o k := by
  by_cases hk : ks.contains k = true
  · rw [if_pos hk]
    have hkm : k ∈ ks := by simpa using hk
    unfold removeKeys jget
    rw [find?_filter_keyKilled]
    intro x hx
    rw [hx]
    simpa using hkm
  · simp only [Bool.not_eq_true] at hk
    have hkm : k ∉ ks := by simpa using hk
    rw [if_neg (by simpa using hk)]
    unfold removeKeys jget
    rw [find?_filter_keyFree]
    intro x hx
    rw [hx]
    simpa using hkm

theorem hasKey_removeKeys (o : Obj) (ks : List String) (k : String) :
    hasKey (removeKeys o ks) k = (! ks.contains k && hasKey o k) := by
  by_cases hk : ks.contains k = true
  · have hkm : k ∈ ks := by simpa using hk
    simp only [hk, Bool.not_true, Bool.false_and]
    unfold removeKeys hasKey
    rw [find?_filter_keyKilled]
    · rfl
    · intro x hx
      rw [hx]
      simpa using hkm
  · simp only [Bool.not_eq_true] at hk
    have hkm : k ∉ ks := by simpa using hk
    simp only [hk, Bool.not_false, Bool.true_and]
    unfold removeKeys hasKey
    rw [find?_filter_keyFree]
    intro x hx
    rw [hx]
    simpa using hkm

theorem hasKey_nil (k : String) : hasKey ([] : Obj) k = false := rfl

theorem jget_nil (k : String) : jget ([] : Obj) k = JVal.undef := rfl

theorem jget_cons (k0 : String) (v : JVal) (rest : Obj) (k : String) :
    jget ((k0, v) :: rest) k = if k0 = k then v else jget rest k := by
  unfold jget
  by_cases h : k0 = k
  · simp [List.find?_cons, h]
  · simp [List.find?_cons, h]

theorem hasKey_cons (k0 : String) (v : JVal) (rest : Obj) (k : String) :
    hasKey ((k0, v) :: rest) k = (k0 = k || hasKey rest k) := by
  unfold hasKey
  by_cases h : k0 = k
  · simp [List.find?_cons, h]
  · simp [List.find?_cons, h]

/-- Field-by-field characterisation of the object built by
`updateContent`: `id`, `status` and `updatedAt` are forced; a truthy
computed `publishedAt` is forced; every other field comes from `data`
when present there, else from the existing record. -/
theorem jget_mergeUpdate (existing data : Obj) (id : String) (now : Millis) (k : String) :
    jget (mergeUpdate existing data id now) k =
      if k = "id" then JVal.str id
      else if k = "status" then newStatusOf existing data
      else if k = "updatedAt" then JVal.str (isoStr now)
      else if k = "publishedAt" ∧ truthy (pubOf existing data now) = true then
        pubOf existing data now
      else if hasKey data k then jget data k
      else jget existing k := by
  unfold mergeUpdate
  rw [jget_spread, jget_spread, hasKey_append]
  by_cases hpub : truthy (pubOf existing data now) = true
  · simp only [hpub, if_true]
    by_cases hid : k = "id"
    · simp [hasKey_cons, jget_cons, hid]
    · by_cases hst : k = "status"
      · simp [hasKey_cons, jget_cons, hst, Ne.symm hid]
      · by_cases hup : k = "updatedAt"
        · simp [hasKey_cons, jget_cons, hup,
            (by simpa [eq_comm] using hid : ¬ ("id" = k)),
            (by simpa [eq_comm] using hst : ¬ ("status" = k))]
        · by_cases hpb : k = "publishedAt"
          · simp [hasKey_cons, jget_cons, hpb, hpub]
          · simp [hasKey_cons, jget_cons, hasKey_append, hasKey_nil, jget_nil,
              (by simpa [eq_comm] using hid : ¬ ("id" = k)),
              (by simpa [eq_comm] using hst : ¬ ("status" = k)),
              (by simpa [eq_comm] using hup : ¬ ("updatedAt" = k)),
              (by simpa [eq_comm] using hpb : ¬ ("publishedAt" = k)),
              hid, hst, hup, hpb]
  · simp only [Bool.not_eq_true] at hpub
    simp only [hpub, Bool.false_eq_true, if_false]
    by_cases hid : k = "id"
    · simp [hasKey_cons, jget_cons, hid]
    · by_cases hst : k = "status"
      · simp [hasKey_cons, jget_cons, hst, Ne.symm hid]
      · by_cases hup : k = "updatedAt"
        · simp [hasKey_cons, jget_cons, hup,
            (by simpa [eq_comm] using hid : ¬ ("id" = k)),
            (by simpa [eq_comm] using hst : ¬ ("status" = k))]
        · simp [hasKey_cons, jget_cons, hasKey_append, hasKey_nil, jget_nil,
            (by simpa [eq_comm] using hid : ¬ ("id" = k)),
            (by simpa [eq_comm] using hst : ¬ ("status" = k)),
            (by simpa [eq_comm] using hup : ¬ ("updatedAt" = k)),
            hid, hst, hup, hpub]

theorem isoStr_ne_empty (t : Millis) : isoStr t ≠ "" := by
  intro h
  have : (isoStr t).length = 0 := by rw [h]; rfl
  have h1 : ∀ l : List Char, l.asString.length = l.length := fun l => rfl
  have h2 : ("1970-01-01T" : String).length = 11 := rfl
  rw [isoStr, String.length_append, h2, h1] at this
  omega

theorem jsDateMs_isoStr (t : Millis) : jsDateMs (JVal.str (isoStr t)) = t := by
  simp [jsDateMs, isoStr_ne_empty t, isoMs_isoStr]

/-! ## Lemma layer: the stable sort -/

theorem insStable_perm (le : α → α → Bool) (acc : List α) (x : α) :
    (insStable le acc x).Perm (x :: acc) := by
  induction acc with
  | nil => simp [insStable]
  | cons y ys ih =>
      unfold insStable
      by_cases h : le y x = true
      · simp only [h, if_true]
        exact (ih.cons y).trans (List.Perm.swap x y ys)
      · simp only [Bool.not_eq_true] at h
        simp [h]

theorem insStable_mem (le : α → α → Bool) (acc : List α) (x y : α) :
    y ∈ insStable le acc x ↔ (y = x ∨ y ∈ acc) := by
  rw [(insStable_perm le acc x).mem_iff]
  simp

theorem foldl_insStable_perm (le : α → α → Bool) (l acc : List α) :
    (l.foldl (insStable le) acc).Perm (acc ++ l) := by
  induction l generalizing acc with
  | nil => simp
  | cons x xs ih =>
      simp only [List.foldl_cons]
      refine (ih (insStable le acc x)).trans ?_
      refine (((insStable_perm le acc x).append_right xs).trans ?_)
      exact (List.perm_middle).symm

theorem stableSortLe_perm (le : α → α → Bool) (l : List α) :
    (stableSortLe le l).Perm l := by
  simpa [stableSortLe] using foldl_insStable_perm le l []

theorem jsSortBy_perm (cmp : α → α → ℤ) (l : List α) : (jsSortBy cmp l).Perm l :=
  stableSortLe_perm _ l

/-- A list split into a prefix where `f` is false followed by a suffix
where `f` is true. -/
def Partitioned (f : α → Bool) (l : List α) : Prop :=
  ∃ us vs, l = us ++ vs ∧ (∀ u ∈ us, f u = false) ∧ (∀ v ∈ vs, f v = true)

theorem insStable_partition (le : α → α → Bool) (f : α → Bool)
    (hR1 : ∀ a b, f a = true → f b = false → le a b = false)
    (hR2 : ∀ a b, f a = false → f b = true → le a b = true)
    (x : α) (acc : List α) (h : Partitioned f acc) :
    Partitioned f (insStable le acc x) := by
  obtain ⟨us, vs, rfl, hus, hvs⟩ := h
  induction us with
  | nil =>
      simp only [List.nil_append]
      cases hx : f x with
      | false =>
          cases vs with
          | nil => exact ⟨[x], [], rfl, by simpa using hx, by simp⟩
          | cons m ms =>
              have hlt : le m x = false := hR1 m x (hvs m (by simp)) hx
              refine ⟨[x], m :: ms, ?_, by simpa using hx, hvs⟩
              simp [insStable, hlt]
      | true =>
          refine ⟨[], insStable le vs x, rfl, by simp, ?_⟩
          intro v hv
          rcases (insStable_mem le vs x v).mp hv with rfl | hv
          · exact hx
          · exact hvs v hv
  | cons u us ih =>
      have hu : f u = false := hus u (by simp)
      simp only [List.cons_append, insStable]
      by_cases hle : le u x = true
      · simp only [hle, if_true]
        obtain ⟨us1, vs1, heq, hus1, hvs1⟩ := ih (fun w hw => hus w (by simp [hw]))
        exact ⟨u :: us1, vs1, by simp [heq], by
          intro w hw
          rcases List.mem_cons.mp hw with rfl | hw
          · exact hu
          · exact hus1 w hw, hvs1⟩
      · simp only [Bool.not_eq_true] at hle
        have hx : f x = false := by
          cases hxv : f x with
          | false => rfl
          | true => rw [hR2 u x hu hxv] at hle; cases hle
        simp only [hle, Bool.false_eq_true, if_false]
        exact ⟨x :: u :: us, vs, by simp, by
          intro w hw
          rcases List.mem_cons.mp hw with rfl | hw
          · exact hx
          · exact hus w hw, hvs⟩

theorem stableSortLe_partition (le : α → α → Bool) (f : α → Bool)
    (hR1 : ∀ a b, f a = true → f b = false → le a b = false)
    (hR2 : ∀ a b, f a = false → f b = true → le a b = true)
    (l : List α) : Partitioned f (stableSortLe le l) := by
  have h : ∀ (rest : List α) (acc : List α), Partitioned f acc →
      Partitioned f (rest.foldl (insStable le) acc) := by
    intro rest
    induction rest with
    | nil => intro acc h; exact h
    | cons x xs ih =>
        intro acc h
        exact ih _ (insStable_partition le f hR1 hR2 x acc h)
  exact h l [] ⟨[], [], rfl, by simp, by simp⟩

theorem insStable_chain (le : α → α → Bool) (R : α → α → Prop)
    (hle : ∀ a b, le a b = true → R a b)
    (hnle : ∀ a b, le b a = false → R a b)
    (x : α) (acc : List α) (h : acc.Chain' R) :
    (insStable le acc x).Chain' R := by
  induction acc with
  | nil => simp [insStable]
  | cons y ys ih =>
      unfold insStable
      by_cases hyx : le y x = true
      · simp only [hyx, if_true]
        have htail : (insStable le ys x).Chain' R := ih h.tail
        rw [List.chain'_cons']
        refine ⟨?_, htail⟩
        intro z hz
        cases ys with
        | nil =>
            simp only [insStable, Option.mem_def] at hz
            cases hz
            exact hle y x hyx
        | cons w ws =>
            unfold insStable at hz
            by_cases hwx : le w x = true
            · simp only [hwx, if_true, Option.mem_def, List.head?_cons] at hz
              cases hz
              exact (List.chain'_cons.mp h).1
            · simp only [Bool.not_eq_true] at hwx
              simp only [hwx, Bool.false_eq_true, if_false, Option.mem_def,
                List.head?_cons] at hz
              cases hz
              exact hle y x hyx
      · simp only [Bool.not_eq_true] at hyx
        simp only [hyx, Bool.false_eq_true, if_false]
        rw [List.chain'_cons]
        exact ⟨hnle x y hyx, h⟩

theorem stableSortLe_chain (le : α → α → Bool) (R : α → α → Prop)
    (hle : ∀ a b, le a b = true → R a b)
    (hnle : ∀ a b, le b a = false → R a b)
    (l : List α) : (stableSortLe le l).Chain' R := by
  have h : ∀ (rest : List α) (acc : List α), acc.Chain' R →
      (rest.foldl (insStable le) acc).Chain' R := by
    intro rest
    induction rest with
    | nil => intro acc h; exact h
    | cons x xs ih => intro acc h; exact ih _ (insStable_chain le R hle hnle x acc h)
  exact h l [] (by simp)

theorem insStable_pairwise (le : α → α → Bool) (good : α → Prop)
    (htot : ∀ a b, good a → good b → (le a b = true ∨ le b a = true))
    (htr : ∀ a b c, good a → good b → good c →
      le a b = true → le b c = true → le a c = true)
    (x : α) (acc : List α) (hx : good x) (hacc : ∀ y ∈ acc, good y)
    (h : acc.Pairwise (fun a b => le a b = true)) :
    (insStable le acc x).Pairwise (fun a b => le a b = true) := by
  induction acc with
  | nil => simp [insStable]
  | cons y ys ih =>
      have hy : good y := hacc y (by simp)
      have hys : ∀ z ∈ ys, good z := fun z hz => hacc z (by simp [hz])
      unfold insStable
      by_cases hyx : le y x = true
      · simp only [hyx, if_true]
        rw [List.pairwise_cons]
        refine ⟨?_, ih hys h.tail⟩
        intro z hz
        rcases (insStable_mem le ys x z).mp hz with rfl | hz
        · exact hyx
        · exact (List.pairwise_cons.mp h).1 z hz
      · simp only [Bool.not_eq_true] at hyx
        have hxy : le x y = true := by
          rcases htot x y hx hy with h1 | h1
          · exact h1
          · rw [h1] at hyx; cases hyx
        simp only [hyx, Bool.false_eq_true, if_false]
        rw [List.pairwise_cons]
        refine ⟨?_, h⟩
        intro z hz
        rcases List.mem_cons.mp hz with rfl | hz
        · exact hxy
        · exact htr x y z hx hy (hys z hz) hxy ((List.pairwise_cons.mp h).1 z hz)

theorem stableSortLe_pairwise (le : α → α → Bool) (good : α → Prop)
    (htot : ∀ a b, good a → good b → (le a b = true ∨ le b a = true))
    (htr : ∀ a b c, good a → good b → good c →
      le a b = true → le b c = true → le a c = true)
    (l : List α) (hl : ∀ y ∈ l, good y) :
    (stableSortLe le l).Pairwise (fun a b => le a b = true) := by
  have h : ∀ (rest : List α), (∀ y ∈ rest, good y) → ∀ (acc : List α),
      (∀ y ∈ acc, good y) → acc.Pairwise (fun a b => le a b = true) →
      ((rest.foldl (insStable le) acc).Pairwise (fun a b => le a b = true)
        ∧ ∀ y ∈ rest.foldl (insStable le) acc, good y) := by
    intro rest
    induction rest with
    | nil => intro _ acc hacc h; exact ⟨h, hacc⟩
    | cons x xs ih =>
        intro hrest acc hacc h
        have hx : good x := hrest x (by simp)
        have hxs : ∀ y ∈ xs, good y := fun y hy => hrest y (by simp [hy])
        refine ih hxs (insStable le acc x) ?_ ?_
        · intro y hy
          rcases (insStable_mem le acc x y).mp hy with rfl | hy
          · exact hx
          · exact hacc y hy
        · exact insStable_pairwise le good htot htr x acc hx hacc h
  exact (h l hl [] (by simp) (by simp)).1

theorem insStable_stab (le : β → β → Bool) (good : β → Prop)
    (htr : ∀ a b c, good a → good b → good c →
      le a b = true → le b c = true → le a c = true)
    (x : Nat × β) (acc : List (Nat × β)) (hx : good x.2) (hacc : ∀ p ∈ acc, good p.2)
    (hidx : ∀ p ∈ acc, p.1 < x.1)
    (hsorted : acc.Pairwise (fun p q => le p.2 q.2 = true))
    (hstab : acc.Pairwise (fun p q => le p.2 q.2 = true → le q.2 p.2 = true → p.1 < q.1)) :
    (insStable (fun p q => le p.2 q.2) acc x).Pairwise
      (fun p q => le p.2 q.2 = true → le q.2 p.2 = true → p.1 < q.1) := by
  induction acc with
  | nil => simp [insStable]
  | cons y ys ih =>
      have hy : good y.2 := hacc y (by simp)
      have hys : ∀ p ∈ ys, good p.2 := fun p hp => hacc p (by simp [hp])
      unfold insStable
      by_cases hyx : le y.2 x.2 = true
      · simp only [hyx, if_true]
        rw [List.pairwise_cons]
        refine ⟨?_, ih hys (fun p hp => hidx p (by simp [hp])) hsorted.tail hstab.tail⟩
        intro q hq _ _
        rcases (insStable_mem _ ys x q).mp hq with rfl | hq
        · exact hidx y (by simp)
        · exact (List.pairwise_cons.mp hstab).1 q hq (by assumption) (by assumption)
      · simp only [Bool.not_eq_true] at hyx
        simp only [hyx, Bool.false_eq_true, if_false]
        rw [List.pairwise_cons]
        refine ⟨?_, hstab⟩
        intro q hq hxq hqx
        rcases List.mem_cons.mp hq with rfl | hq
        · rw [hqx] at hyx; cases hyx
        · have hyq : le y.2 q.2 = true := (List.pairwise_cons.mp hsorted).1 q hq
          have : le y.2 x.2 = true := htr y.2 q.2 x.2 hy (hys q hq) hx hyq hqx
          rw [this] at hyx; cases hyx

/-- Stability of the modelled `Array.prototype.sort`: on an
index-tagged list with strictly increasing tags, elements whose keys tie
under the comparator appear in tag order in the output — provided the
comparator is consistent (transitive and total) on the listed
elements. -/
theorem stableSortLe_stable (le : β → β → Bool) (good : β → Prop)
    (htot : ∀ a b, good a → good b → (le a b = true ∨ le b a = true))
    (htr : ∀ a b c, good a → good b → good c →
      le a b = true → le b c = true → le a c = true)
    (l : List (Nat × β)) (hl : ∀ p ∈ l, good p.2)
    (hmono : l.Pairwise (fun p q => p.1 < q.1)) :
    (stableSortLe (fun p q => le p.2 q.2) l).Pairwise
      (fun p q => le p.2 q.2 = true → le q.2 p.2 = true → p.1 < q.1) := by
  have main : ∀ (rest : List (Nat × β)), (∀ p ∈ rest, good p.2) →
      rest.Pairwise (fun p q => p.1 < q.1) →
      ∀ (acc : List (Nat × β)), (∀ p ∈ acc, good p.2) →
      (∀ p ∈ acc, ∀ q ∈ rest, p.1 < q.1) →
      acc.Pairwise (fun p q => le p.2 q.2 = true) →
      acc.Pairwise (fun p q => le p.2 q.2 = true → le q.2 p.2 = true → p.1 < q.1) →
      (rest.foldl (insStable (fun p q => le p.2 q.2)) acc).Pairwise
        (fun p q => le p.2 q.2 = true → le q.2 p.2 = true → p.1 < q.1) := by
    intro rest
    induction rest with
    | nil => intro _ _ acc _ _ _ hstab; exact hstab
    | cons x xs ih =>
        intro hrest hrmono acc hacc hcross hsorted hstab
        have hx : good x.2 := hrest x (by simp)
        have hxs : ∀ p ∈ xs, good p.2 := fun p hp => hrest p (by simp [hp])
        simp only [List.foldl_cons]
        refine ih hxs hrmono.tail (insStable (fun p q => le p.2 q.2) acc x) ?_ ?_ ?_ ?_
        · intro p hp
          rcases (insStable_mem _ acc x p).mp hp with rfl | hp
          · exact hx
          · exact hacc p hp
        · intro p hp q hq
          rcases (insStable_mem _ acc x p).mp hp with rfl | hp
          · exact (List.pairwise_cons.mp hrmono).1 q hq
          · exact hcross p hp q (by simp [hq])
        · exact insStable_pairwise (fun p q => le p.2 q.2) (fun p => good p.2)
            (fun a b ha hb => htot a.2 b.2 ha hb)
            (fun a b c ha hb hc => htr a.2 b.2 c.2 ha hb hc)
            x acc hx hacc hsorted
        · exact insStable_stab le good htr x acc hx hacc
            (fun p hp => hcross p hp x (by simp)) hsorted hstab
  exact main l hl hmono [] (by simp) (by simp) (by simp) (by simp)

theorem insStable_map_snd (le : β → β → Bool) (acc : List (Nat × β)) (x : Nat × β) :
    (insStable (fun p q => le p.2 q.2) acc x).map Prod.snd
      = insStable le (acc.map Prod.snd) x.2 := by
  induction acc with
  | nil => simp [insStable]
  | cons y ys ih =>
      unfold insStable
      by_cases h : le y.2 x.2 = true
      · simp [h, ih]
      · simp only [Bool.not_eq_true] at h
        simp [h]

theorem stableSortLe_map_snd (le : β → β → Bool) (l : List (Nat × β)) :
    (stableSortLe (fun p q => le p.2 q.2) l).map Prod.snd
      = stableSortLe le (l.map Prod.snd) := by
  have main : ∀ (rest acc : List (Nat × β)),
      (rest.foldl (insStable (fun p q => le p.2 q.2)) acc).map Prod.snd
        = (rest.map Prod.snd).foldl (insStable le) (acc.map Prod.snd) := by
    intro rest
    induction rest with
    | nil => intro acc; simp
    | cons x xs ih =>
        intro acc
        simp only [List.foldl_cons, List.map_cons]
        rw [ih, insStable_map_snd]
  simpa [stableSortLe] using main l []

theorem enum_pairwise_fst_lt (l : List α) :
    l.enum.Pairwise (fun p q => p.1 < q.1) := by
  have h : (l.enum.map Prod.fst).Pairwise (fun a b => a < b) := by
    rw [List.enum_map_fst]
    exact List.pairwise_lt_range l.length
  exact List.pairwise_map.mp h

/-! ## Lemma layer: the sort comparator -/

theorem numLt_asymm (x y : JVal) (h : numLt x y = true) : numLt y x = false := by
  unfold numLt at h ⊢
  cases hx : jsToNumber x with
  | none => rw [hx] at h; cases hy : jsToNumber y <;> simp at h
  | some p =>
      rw [hx] at h
      cases hy : jsToNumber y with
      | none => simp [hy] at h
      | some q =>
          rw [hy] at h
          simp only [decide_eq_true_eq] at h
          simp only [decide_eq_false_iff_not]
          exact lt_asymm h

theorem jsLt_asymm (a b : JVal) (h : jsLt a b = true) : jsLt b a = false := by
  unfold jsLt at h ⊢
  generalize hva : (if isComposite a then JVal.str (jsToString a) else a) = va at h ⊢
  generalize hvb : (if isComposite b then JVal.str (jsToString b) else b) = vb at h ⊢
  clear hva hvb
  by_cases hss : (isStr va && isStr vb) = true
  · have hss2 : (isStr vb && isStr va) = true := by
      simp only [Bool.and_eq_true] at hss ⊢
      exact ⟨hss.2, hss.1⟩
    simp only [hss, hss2, if_true] at h ⊢
    simp only [decide_eq_true_eq] at h
    simp only [decide_eq_false_iff_not]
    exact lt_asymm h
  · by_cases hss2 : (isStr vb && isStr va) = true
    · rw [Bool.and_eq_true] at hss2
      have hcontra : (isStr va && isStr vb) = true := by
        rw [Bool.and_eq_true]
        exact ⟨hss2.2, hss2.1⟩
      exact absurd hcontra hss
    · simp only [Bool.not_eq_true] at hss hss2
      simp only [hss, hss2, Bool.false_eq_true, if_false] at h ⊢
      exact numLt_asymm va vb h

theorem sortCompare_zero_symm (field : String) (isDesc : Bool) (a b : Obj)
    (h : sortCompare field isDesc a b = 0) : sortCompare field isDesc b a = 0 := by
  unfold sortCompare at h ⊢
  by_cases hma : isMissing (getNestedValue a field) = true
  · simp only [hma, if_true] at h
    cases isDesc <;> simp at h
  · simp only [Bool.not_eq_true] at hma
    simp only [hma, Bool.false_eq_true, if_false] at h
    by_cases hmb : isMissing (getNestedValue b field) = true
    · simp only [hmb, if_true] at h
      cases isDesc <;> simp at h
    · simp only [Bool.not_eq_true] at hmb
      simp only [hmb, hma, Bool.false_eq_true, if_false] at h ⊢
      by_cases hlt : jsLt (getNestedValue a field) (getNestedValue b field) = true
      · simp only [hlt, if_true] at h
        cases isDesc <;> simp at h
      · simp only [Bool.not_eq_true] at hlt
        simp only [hlt, Bool.false_eq_true, if_false] at h
        by_cases hgt : jsGt (getNestedValue a field) (getNestedValue b field) = true
        · simp only [hgt, if_true] at h
          cases isDesc <;> simp at h
        · simp only [Bool.not_eq_true] at hgt
          have hlt2 : jsLt (getNestedValue b field) (getNestedValue a field) = false := hgt
          have hgt2 : jsGt (getNestedValue b field) (getNestedValue a field) = false := hlt
          simp [hlt2, hgt2]

theorem sortCompare_le_of_gt_rev (field : String) (isDesc : Bool) (a b : Obj)
    (hma : isMissing (getNestedValue a field) = false)
    (hmb : isMissing (getNestedValue b field) = false)
    (h : ¬ sortCompare field isDesc b a ≤ 0) :
    sortCompare field isDesc a b ≤ 0 := by
  unfold sortCompare at h ⊢
  simp only [hma, hmb, Bool.false_eq_true, if_false] at h ⊢
  by_cases hlt : jsLt (getNestedValue b field) (getNestedValue a field) = true
  · have hrev : jsLt (getNestedValue a field) (getNestedValue b field) = false :=
      jsLt_asymm _ _ hlt
    have hgt : jsGt (getNestedValue a field) (getNestedValue b field) = true := hlt
    cases isDesc <;> simp_all [jsGt]
  · simp only [Bool.not_eq_true] at hlt
    simp only [hlt, Bool.false_eq_true, if_false] at h
    by_cases hgt : jsGt (getNestedValue b field) (getNestedValue a field) = true
    · have : jsLt (getNestedValue a field) (getNestedValue b field) = true := hgt
      cases isDesc <;> simp_all [jsGt]
    · simp only [Bool.not_eq_true] at hgt
      simp [hgt] at h

/-- The sort key is absent (`undefined` or `null`) at the item. -/
def missingAt (field : String) (o : Obj) : Bool :=
  isMissing (getNestedValue o field)

theorem sortCompare_missing_left (field : String) (isDesc : Bool) (a b : Obj)
    (h : missingAt field a = true) :
    sortCompare field isDesc a b = if isDesc then -1 else 1 := by
  unfold sortCompare
  unfold missingAt at h
  simp [h]

theorem sortCompare_present_missing (field : String) (isDesc : Bool) (a b : Obj)
    (ha : missingAt field a = false) (hb : missingAt field b = true) :
    sortCompare field isDesc a b = if isDesc then 1 else -1 := by
  unfold sortCompare
  unfold missingAt at ha hb
  simp [ha, hb]

/-! ## Lemma layer: version retention -/

/-- The sort key of the version listing: `new Date(versionedAt ||
0).getTime()`. -/
def versionTimeOf (o : Obj) : Millis :=
  jsDateMs (jget o "versionedAt")

theorem dirWrite_fresh (d : VersionDir) (stem : String) (v : Obj)
    (h : ∀ e ∈ d, e.1 ≠ stem) : dirWrite d stem v = d ++ [(stem, v)] := by
  unfold dirWrite
  rw [if_neg]
  intro hc
  simp only [List.any_eq_true, decide_eq_true_eq] at hc
  obtain ⟨e, he, hee⟩ := hc
  exact h e he hee

theorem vidStr_versionSnapshot (content : Obj) (t1 t2 : Millis) :
    vidStr (versionSnapshot content t1 t2) = "v" ++ isoStr t1 := by
  unfold vidStr versionSnapshot
  rw [jget_spread]
  simp [hasKey_cons, jget_cons, jsToString]

theorem versionTimeOf_versionSnapshot (content : Obj) (t1 t2 : Millis) :
    versionTimeOf (versionSnapshot content t1 t2) = t2 := by
  unfold versionTimeOf versionSnapshot
  rw [jget_spread]
  simp [hasKey_cons, jget_cons, jsDateMs_isoStr]

theorem listVersions_perm (d : VersionDir) : (listVersions d).Perm (d.map Prod.snd) :=
  jsSortBy_perm _ _

/-- After `cleanupOldVersions` on a canonical directory (file stems
match the stored `versionId`s, stems are distinct, `versionedAt` keys
are distinct), exactly the `keep` snapshots with the greatest
`versionedAt` survive: the result length is `min |d| keep`, survivors
are directory entries, and every removed entry is strictly older than
every survivor. -/
theorem cleanup_retention (all : VersionDir) (keep : Nat)
    (hcanonAll : ∀ e ∈ all, vidStr e.2 = e.1)
    (hkeysAll : (all.map Prod.fst).Nodup)
    (htimesAll : (all.map (fun e => versionTimeOf e.2)).Nodup) :
    ((cleanupOldVersions all keep).length = min all.length keep)
      ∧ (∀ e ∈ cleanupOldVersions all keep, e ∈ all)
      ∧ (∀ e ∈ cleanupOldVersions all keep, ∀ f ∈ all, f ∉ cleanupOldVersions all keep →
          versionTimeOf f.2 < versionTimeOf e.2) := by
  have hperm : (listVersions all).Perm (all.map Prod.snd) := listVersions_perm all
  have hlen : (listVersions all).length = all.length := by
    rw [hperm.length_eq, List.length_map]
  have hmemSorted : ∀ y, y ∈ listVersions all ↔ y ∈ all.map Prod.snd := fun y => hperm.mem_iff
  have hNodupTimes : ((listVersions all).map versionTimeOf).Nodup := by
    rw [(hperm.map versionTimeOf).nodup_iff, List.map_map]
    exact htimesAll
  have hsortedNodup : (listVersions all).Nodup := List.Nodup.of_map versionTimeOf hNodupTimes
  have hobjsNodup : (all.map Prod.snd).Nodup := by
    rw [← hperm.nodup_iff]
    exact hsortedNodup
  have hsortedPW : (listVersions all).Pairwise (fun a b => versionTimeOf b ≤ versionTimeOf a) := by
    have hp := stableSortLe_pairwise
      (fun a b : Obj => decide ((jsDateMs (jget b "versionedAt") : ℤ)
        - (jsDateMs (jget a "versionedAt") : ℤ) ≤ 0))
      (fun _ => True)
      (by
        intro a b _ _
        by_cases h : (jsDateMs (jget b "versionedAt") : ℤ)
            - (jsDateMs (jget a "versionedAt") : ℤ) ≤ 0
        · exact Or.inl (decide_eq_true h)
        · exact Or.inr (decide_eq_true (by omega)))
      (by
        intro a b c _ _ _ hab hbc
        have h1 := of_decide_eq_true hab
        have h2 := of_decide_eq_true hbc
        exact decide_eq_true (by omega))
      (all.map Prod.snd) (by simp)
    refine hp.imp ?_
    intro a b h
    have h1 := of_decide_eq_true h
    have h2 : (jsDateMs (jget b "versionedAt") : ℤ) ≤ (jsDateMs (jget a "versionedAt") : ℤ) := by
      omega
    show jsDateMs (jget b "versionedAt") ≤ jsDateMs (jget a "versionedAt")
    exact_mod_cast h2
  have hstrict : (listVersions all).Pairwise (fun a b => versionTimeOf b < versionTimeOf a) := by
    have hne : (listVersions all).Pairwise (fun a b => versionTimeOf a ≠ versionTimeOf b) :=
      List.pairwise_map.mp hNodupTimes
    exact (hsortedPW.and hne).imp (fun h => lt_of_le_of_ne h.1 (Ne.symm h.2))
  unfold cleanupOldVersions
  by_cases hsmall : (listVersions all).length ≤ keep
  · rw [if_pos hsmall]
    refine ⟨?_, fun e he => he, ?_⟩
    · rw [hlen] at hsmall
      omega
    · intro e _ f hf hfn
      exact absurd hf hfn
  · rw [if_neg hsmall]
    have hchar : ∀ e ∈ all,
        ((((listVersions all).drop keep).map vidStr).contains e.1 = true
          ↔ e.2 ∈ (listVersions all).drop keep) := by
      intro e he
      constructor
      · intro hc
        have hm : e.1 ∈ ((listVersions all).drop keep).map vidStr := by simpa using hc
        obtain ⟨y, hy, hvy⟩ := List.mem_map.mp hm
        have hys : y ∈ listVersions all := List.mem_of_mem_drop hy
        have hyo : y ∈ all.map Prod.snd := (hmemSorted y).mp hys
        obtain ⟨f, hf, hfy⟩ := List.mem_map.mp hyo
        have hfe : f = e := by
          apply List.inj_on_of_nodup_map hkeysAll hf he
          rw [← hvy, ← hfy]
          exact (hcanonAll f hf).symm
        rw [← hfe, hfy]
        exact hy
      · intro hm
        have : vidStr e.2 ∈ ((listVersions all).drop keep).map vidStr :=
          List.mem_map_of_mem vidStr hm
        rw [hcanonAll e he] at this
        simpa using this
    have hmemRes : ∀ e,
        (e ∈ all.filter (fun e => ¬ (((listVersions all).drop keep).map vidStr).contains e.1)
          ↔ e ∈ all ∧ e.2 ∉ (listVersions all).drop keep) := by
      intro e
      rw [List.mem_filter]
      constructor
      · rintro ⟨he, hp⟩
        exact ⟨he, fun hm => absurd ((hchar e he).mpr hm) (of_decide_eq_true hp)⟩
      · rintro ⟨he, hm⟩
        exact ⟨he, decide_eq_true (fun hc => hm ((hchar e he).mp hc))⟩
    have hdisj : ((listVersions all).take keep).Disjoint ((listVersions all).drop keep) := by
      have h2 := hsortedNodup
      rw [← List.take_append_drop keep (listVersions all)] at h2
      exact List.disjoint_of_nodup_append h2
    have hmemTake : ∀ y, y ∈ (listVersions all).take keep
        ↔ (y ∈ all.map Prod.snd ∧ y ∉ (listVersions all).drop keep) := by
      intro y
      constructor
      · intro hy
        refine ⟨(hmemSorted y).mp (List.mem_of_mem_take hy), fun hc => hdisj hy hc⟩
      · rintro ⟨hy, hnd⟩
        have hys : y ∈ listVersions all := (hmemSorted y).mpr hy
        rw [← List.take_append_drop keep (listVersions all), List.mem_append] at hys
        rcases hys with h | h
        · exact h
        · exact absurd h hnd
    have hresPerm :
        ((all.filter (fun e => ¬ (((listVersions all).drop keep).map vidStr).contains e.1)).map
            Prod.snd).Perm ((listVersions all).take keep) := by
      apply (List.perm_ext_iff_of_nodup ?_ ?_).mpr
      · intro y
        rw [hmemTake y]
        constructor
        · intro hy
          obtain ⟨e, he, hey⟩ := List.mem_map.mp hy
          obtain ⟨heall, hnd⟩ := (hmemRes e).mp he
          exact ⟨hey ▸ List.mem_map_of_mem Prod.snd heall, hey ▸ hnd⟩
        · rintro ⟨hy, hnd⟩
          obtain ⟨e, he, hey⟩ := List.mem_map.mp hy
          refine List.mem_map.mpr ⟨e, ?_, hey⟩
          exact (hmemRes e).mpr ⟨he, hey ▸ hnd⟩
      · apply List.Nodup.sublist ?_ hobjsNodup
        exact List.Sublist.map Prod.snd (List.filter_sublist all)
      · exact List.Nodup.sublist (List.take_sublist keep (listVersions all)) hsortedNodup
    refine ⟨?_, ?_, ?_⟩
    · have h1 := hresPerm.length_eq
      rw [List.length_map] at h1
      rw [h1, List.length_take, hlen]
      omega
    · intro e he
      exact ((hmemRes e).mp he).1
    · intro e he f hf hfn
      have he2 := (hmemRes e).mp he
      have hf2 : f.2 ∈ (listVersions all).drop keep := by
        by_contra hc
        exact hfn ((hmemRes f).mpr ⟨hf, hc⟩)
      have he3 : e.2 ∈ (listVersions all).take keep :=
        (hmemTake e.2).mpr ⟨List.mem_map_of_mem Prod.snd he2.1, he2.2⟩
      have hsplit := hstrict
      rw [← List.take_append_drop keep (listVersions all)] at hsplit
      exact (List.pairwise_append.mp hsplit).2.2 e.2 he3 f.2 hf2

/-! ## Lemma layer: uniqueness validation -/

theorem isUndef_iff (v : JVal) : isUndef v = true ↔ v = JVal.undef := by
  cases v <;> simp [isUndef]

theorem jsStrictEq_null_iff (v : JVal) : jsStrictEq v JVal.null = true ↔ v = JVal.null := by
  cases v <;> simp [jsStrictEq]

/-- The candidate value for the field is absent or `null` — the skip
condition of `validateUniqueness`. -/
def uniqueSkipped (data : Obj) (f : String) : Prop :=
  jget data f = JVal.undef ∨ jget data f = JVal.null

/-- Some non-excluded existing record carries an equal value for the
field (case-insensitively for a string pair, strictly otherwise). -/
def uniqueConflict (allItems : List Obj) (data : Obj) (excludeId : JVal) (f : String) : Prop :=
  ∃ item ∈ allItems,
    ¬ (truthy excludeId = true ∧ jsStrictEq (jget item "id") excludeId = true)
      ∧ isDuplicateOf (jget data f) (jget item f) = true

/-- The Boolean "this field is violated" test matching the source scan
of one unique field. -/
def uniqueViolatedB (allItems : List Obj) (data : Obj) (excludeId : JVal) (f : String) : Bool :=
  (! (isUndef (jget data f) || jsStrictEq (jget data f) JVal.null))
    && (allItems.find? (fun item =>
        if truthy excludeId && jsStrictEq (jget item "id") excludeId then false
        else isDuplicateOf (jget data f) (jget item f))).isSome

theorem uniqueViolatedB_iff (allItems : List Obj) (data : Obj) (excludeId : JVal)
    (f : String) :
    uniqueViolatedB allItems data excludeId f = true
      ↔ (¬ uniqueSkipped data f ∧ uniqueConflict allItems data excludeId f) := by
  unfold uniqueViolatedB uniqueSkipped uniqueConflict
  rw [Bool.and_eq_true, Bool.not_eq_true', Bool.or_eq_false_iff]
  rw [List.find?_isSome]
  constructor
  · rintro ⟨⟨h1, h2⟩, item, hitem, hp⟩
    refine ⟨?_, item, hitem, ?_, ?_⟩
    · rintro (h | h)
      · rw [h] at h1; simp [isUndef] at h1
      · rw [h] at h2; simp [jsStrictEq] at h2
    · rintro ⟨hx, hy⟩
      rw [if_pos (by rw [Bool.and_eq_true]; exact ⟨hx, hy⟩)] at hp
      cases hp
    · by_cases hex : (truthy excludeId && jsStrictEq (jget item "id") excludeId) = true
      · rw [if_pos hex] at hp; cases hp
      · rw [if_neg hex] at hp; exact hp
  · rintro ⟨hns, item, hitem, hnex, hdup⟩
    refine ⟨⟨?_, ?_⟩, item, hitem, ?_⟩
    · cases h : isUndef (jget data f) with
      | false => rfl
      | true => exact absurd (Or.inl ((isUndef_iff _).mp h)) hns
    · cases h : jsStrictEq (jget data f) JVal.null with
      | false => rfl
      | true => exact absurd (Or.inr ((jsStrictEq_null_iff _).mp h)) hns
    · rw [if_neg]
      · exact hdup
      · intro hc
        rw [Bool.and_eq_true] at hc
        exact hnex hc

theorem validateUniqueness_errors_eq (type : String) (uniqueFields : List String)
    (allItems : List Obj) (data : Obj) (excludeId : JVal) :
    (validateUniqueness type uniqueFields allItems data excludeId).errors
      = ((uniqueFields.filter (uniqueViolatedB allItems data excludeId)).map
          (fun f => uniqueError type f (jget data f)))
    ∧ (validateUniqueness type uniqueFields allItems data excludeId).valid
      = (uniqueFields.filter (uniqueViolatedB allItems data excludeId)).isEmpty := by
  have hfold : ∀ (fs : List String) (acc : List UniqueError),
      fs.foldl (fun errs f =>
        if isUndef (jget data f) || jsStrictEq (jget data f) JVal.null then errs
        else
          match allItems.find? (fun item =>
            if truthy excludeId && jsStrictEq (jget item "id") excludeId then false
            else isDuplicateOf (jget data f) (jget item f)) with
          | some _ => errs ++ [uniqueError type f (jget data f)]
          | none => errs) acc
      = acc ++ (fs.filter (uniqueViolatedB allItems data excludeId)).map
          (fun f => uniqueError type f (jget data f)) := by
    intro fs
    induction fs with
    | nil => intro acc; simp
    | cons f fs ih =>
        intro acc
        simp only [List.foldl_cons, List.filter_cons]
        by_cases hskip : (isUndef (jget data f) || jsStrictEq (jget data f) JVal.null) = true
        · have hB : uniqueViolatedB allItems data excludeId f = false := by
            unfold uniqueViolatedB
            rw [hskip]
            rfl
          rw [if_pos hskip, ih acc, hB]
          simp
        · simp only [Bool.not_eq_true] at hskip
          rw [if_neg (by simp [hskip])]
          cases hfind : allItems.find? (fun item =>
              if truthy excludeId && jsStrictEq (jget item "id") excludeId then false
              else isDuplicateOf (jget data f) (jget item f)) with
          | none =>
              have hB : uniqueViolatedB allItems data excludeId f = false := by
                unfold uniqueViolatedB
                rw [hskip, hfind]
                rfl
              rw [ih acc, hB]
              simp
          | some v =>
              have hB : uniqueViolatedB allItems data excludeId f = true := by
                unfold uniqueViolatedB
                rw [hskip, hfind]
                rfl
              rw [ih (acc ++ [uniqueError type f (jget data f)]), hB]
              simp
  by_cases hempty : uniqueFields = []
  · subst hempty
    exact ⟨rfl, rfl⟩
  · unfold validateUniqueness
    rw [if_neg hempty]
    have h := hfold uniqueFields []
    rw [List.nil_append] at h
    rw [h]
    by_cases hie : ((uniqueFields.filter (uniqueViolatedB allItems data excludeId)).map
        (fun f => uniqueError type f (jget data f))).isEmpty = true
    · rw [if_pos hie]
      have hn : (uniqueFields.filter (uniqueViolatedB allItems data excludeId)) = [] :=
        List.map_eq_nil_iff.mp (List.isEmpty_iff.mp hie)
      refine ⟨?_, ?_⟩
      · rw [hn]
        rfl
      · rw [hn]
        rfl
    · rw [if_neg (by simp [hie])]
      refine ⟨rfl, ?_⟩
      cases hfil : (uniqueFields.filter (uniqueViolatedB allItems data excludeId)).isEmpty with
      | false => rfl
      | true =>
          refine absurd ?_ hie
          rw [List.isEmpty_iff.mp hfil]
          rfl

/-- C9: `validateUniqueness` is valid exactly when no unique field is
violated, where a field is violated when the candidate value is present
and non-`null` and some non-excluded existing record carries an equal
value (strings case-insensitively, everything else by strict equality);
and the error report names exactly the violated fields (the scan does
not stop at the first conflict). -/
theorem validateUniqueness_spec (type : String) (uniqueFields : List String)
    (allItems : List Obj) (data : Obj) (excludeId : JVal) :
    ((validateUniqueness type uniqueFields allItems data excludeId).valid = true
      ↔ (∀ f ∈ uniqueFields, ¬ uniqueSkipped data f →
          ¬ uniqueConflict allItems data excludeId f))
    ∧ (∀ f, (∃ e ∈ (validateUniqueness type uniqueFields allItems data excludeId).errors,
          e.field = f)
        ↔ (f ∈ uniqueFields ∧ ¬ uniqueSkipped data f
            ∧ uniqueConflict allItems data excludeId f)) := by
  obtain ⟨herr, hval⟩ := validateUniqueness_errors_eq type uniqueFields allItems data excludeId
  constructor
  · rw [hval, List.isEmpty_iff, List.filter_eq_nil_iff]
    constructor
    · intro h f hf hns hcf
      exact (h f hf) ((uniqueViolatedB_iff allItems data excludeId f).mpr ⟨hns, hcf⟩)
    · intro h f hf hB
      obtain ⟨hns, hcf⟩ := (uniqueViolatedB_iff allItems data excludeId f).mp hB
      exact h f hf hns hcf
  · intro f
    rw [herr]
    constructor
    · rintro ⟨e, he, hef⟩
      obtain ⟨f1, hf1, hfe⟩ := List.mem_map.mp he
      have hfield : e.field = f1 := by rw [← hfe]; rfl
      rw [List.mem_filter] at hf1
      obtain ⟨hns, hcf⟩ := (uniqueViolatedB_iff allItems data excludeId f1).mp hf1.2
      rw [hfield] at hef
      rw [← hef]
      exact ⟨hf1.1, hns, hcf⟩
    · rintro ⟨hmem, hns, hcf⟩
      refine ⟨uniqueError type f (jget data f), ?_, rfl⟩
      apply List.mem_map_of_mem
      rw [List.mem_filter]
      exact ⟨hmem, (uniqueViolatedB_iff allItems data excludeId f).mpr ⟨hns, hcf⟩⟩

/-! ## Lemma layer: relation resolver -/

/-- The target and the item share at least one tag (membership by
`includes`, i.e. strict equality). -/
def SharesTag (content item : Obj) : Prop :=
  ∃ ts its, jget content "tags" = JVal.arr ts ∧ jget item "tags" = JVal.arr its
    ∧ ∃ t ∈ ts, ∃ u ∈ its, jsStrictEq u t = true

/-- The item's category strictly equals the target's (truthy)
category. -/
def SameCategory (content item : Obj) : Prop :=
  truthy (jget content "category") = true
    ∧ jsStrictEq (jget item "category") (jget content "category") = true

/-- One of the recognized relation fields of the item references the
target id. -/
def RefersTo (item : Obj) (id : String) : Prop :=
  ∃ f ∈ relationFields, truthy (jget item f) = true ∧ refHit (refsOf (jget item f)) id = true

/-- The item is related to the target for one of the three scored
reasons. -/
def RelReason (content : Obj) (id : String) (o : Obj) : Prop :=
  SharesTag content o ∨ SameCategory content o ∨ RefersTo o id

/-- Every accumulator entry has a positive score and a reason. -/
def GoodRel (content : Obj) (id : String) (r : ScoredRel) : Prop :=
  1 ≤ r.score ∧ RelReason content id r.item

theorem bumpFirst_inv (content : Obj) (id : String) (acc acc1 : List ScoredRel) (item : Obj)
    (h : bumpFirst acc item = some acc1) (hacc : ∀ r ∈ acc, GoodRel content id r) :
    ∀ r ∈ acc1, GoodRel content id r := by
  induction acc generalizing acc1 with
  | nil => simp [bumpFirst] at h
  | cons r rs ih =>
      unfold bumpFirst at h
      by_cases he : jsStrictEq (jget r.item "id") (jget item "id") = true
      · rw [if_pos he] at h
        cases h
        intro s hs
        rcases List.mem_cons.mp hs with rfl | hs
        · have hr := hacc r (by simp)
          refine ⟨?_, hr.2⟩
          show (1 : ℤ) ≤ r.score + 1
          have h1 := hr.1
          omega
        · exact hacc s (by simp [hs])
      · rw [if_neg he] at h
        cases hrec : bumpFirst rs item with
        | none => rw [hrec] at h; cases h
        | some rs1 =>
            rw [hrec] at h
            injection h with h2
            subst h2
            intro s hs
            rcases List.mem_cons.mp hs with rfl | hs
            · exact hacc s (by simp)
            · exact ih rs1 hrec (fun t ht => hacc t (by simp [ht])) s hs

theorem addOrBump_inv (content : Obj) (id : String) (acc : List ScoredRel) (item : Obj)
    (reason : String) (hacc : ∀ r ∈ acc, GoodRel content id r)
    (hnew : RelReason content id item) :
    ∀ r ∈ addOrBump acc item reason, GoodRel content id r := by
  unfold addOrBump
  cases hb : bumpFirst acc item with
  | some acc1 => exact bumpFirst_inv content id acc acc1 item hb hacc
  | none =>
      intro r hr
      rcases List.mem_append.mp hr with hr | hr
      · exact hacc r hr
      · rw [List.mem_singleton] at hr
        rw [hr]
        exact ⟨by norm_num, hnew⟩

theorem relPhase1_inv (content : Obj) (id : String) (items : List Obj) :
    ∀ r ∈ relPhase1 content id items, GoodRel content id r := by
  unfold relPhase1
  cases htags : jget content "tags" with
  | arr ts =>
      by_cases hlen : ts.length > 0
      · simp only [hlen, if_pos]
        have main : ∀ (rest : List Obj) (acc : List ScoredRel),
            (∀ r ∈ acc, GoodRel content id r) →
            ∀ r ∈ rest.foldl (fun acc item =>
              if ! jsStrictEq (jget item "id") (JVal.str id) then
                match jget item "tags" with
                | JVal.arr its =>
                    if (ts.filter (fun t => its.any (fun u => jsStrictEq u t))).length > 0 then
                      acc ++ [⟨item, (ts.filter (fun t => its.any (fun u => jsStrictEq u t))).length,
                        "tags"⟩]
                    else acc
                | _ => acc
              else acc) acc, GoodRel content id r := by
          intro rest
          induction rest with
          | nil => intro acc hacc; exact hacc
          | cons x xs ih =>
              intro acc hacc
              simp only [List.foldl_cons]
              apply ih
              by_cases hid : (! jsStrictEq (jget x "id") (JVal.str id)) = true
              · rw [if_pos hid]
                cases hxt : jget x "tags" with
                | arr its =>
                    dsimp only
                    by_cases hc :
                        (ts.filter (fun t => its.any (fun u => jsStrictEq u t))).length > 0
                    · rw [if_pos hc]
                      intro r hr
                      rcases List.mem_append.mp hr with hr | hr
                      · exact hacc r hr
                      · rw [List.mem_singleton] at hr
                        rw [hr]
                        constructor
                        · show (1 : ℤ) ≤
                            ((ts.filter (fun t => its.any (fun u => jsStrictEq u t))).length : ℤ)
                          exact_mod_cast hc
                        · obtain ⟨t, ht⟩ := List.exists_mem_of_length_pos hc
                          rw [List.mem_filter] at ht
                          obtain ⟨u, hu, hut⟩ := List.any_eq_true.mp ht.2
                          exact Or.inl ⟨ts, its, htags, hxt, t, ht.1, u, hu, hut⟩
                    · rw [if_neg hc]
                      exact hacc
                | undef => exact hacc
                | null => exact hacc
                | bool b => exact hacc
                | num q => exact hacc
                | str s => exact hacc
                | obj o => exact hacc
              · rw [if_neg hid]
                exact hacc
        exact main items [] (by simp)
      · simp only [hlen]
        simp
  | undef => simp
  | null => simp
  | bool b => simp
  | num q => simp
  | str s => simp
  | obj o => simp

theorem relPhase2_inv (content : Obj) (id : String) (items : List Obj)
    (acc : List ScoredRel) (hacc : ∀ r ∈ acc, GoodRel content id r) :
    ∀ r ∈ relPhase2 content id items acc, GoodRel content id r := by
  unfold relPhase2
  by_cases hcat : truthy (jget content "category") = true
  · rw [if_pos hcat]
    have main : ∀ (rest : List Obj) (acc : List ScoredRel),
        (∀ r ∈ acc, GoodRel content id r) →
        ∀ r ∈ rest.foldl (fun acc item =>
          if ! jsStrictEq (jget item "id") (JVal.str id)
              && jsStrictEq (jget item "category") (jget content "category")
          then addOrBump acc item "category" else acc) acc, GoodRel content id r := by
      intro rest
      induction rest with
      | nil => intro acc hacc; exact hacc
      | cons x xs ih =>
          intro acc hacc
          simp only [List.foldl_cons]
          apply ih
          by_cases hg : (! jsStrictEq (jget x "id") (JVal.str id)
              && jsStrictEq (jget x "category") (jget content "category")) = true
          · rw [if_pos hg]
            rw [Bool.and_eq_true] at hg
            exact addOrBump_inv content id acc x "category" hacc
              (Or.inr (Or.inl ⟨hcat, hg.2⟩))
          · rw [if_neg hg]
            exact hacc
    exact main items acc hacc
  · rw [if_neg hcat]
    exact hacc

theorem relPhase3_inv (content : Obj) (id : String) (items : List Obj)
    (acc : List ScoredRel) (hacc : ∀ r ∈ acc, GoodRel content id r) :
    ∀ r ∈ relPhase3 id items acc, GoodRel content id r := by
  unfold relPhase3
  have main : ∀ (flds : List String), (∀ f ∈ flds, f ∈ relationFields) →
      ∀ (acc : List ScoredRel), (∀ r ∈ acc, GoodRel content id r) →
      ∀ r ∈ flds.foldl (fun acc field =>
        items.foldl (fun acc item =>
          if ! jsStrictEq (jget item "id") (JVal.str id) && truthy (jget item field) then
            if refHit (refsOf (jget item field)) id then addOrBump acc item "relation" else acc
          else acc) acc) acc, GoodRel content id r := by
    intro flds
    induction flds with
    | nil => intro _ acc hacc; exact hacc
    | cons f fs ih =>
        intro hmem acc hacc
        simp only [List.foldl_cons]
        apply ih (fun g hg => hmem g (by simp [hg]))
        have hf : f ∈ relationFields := hmem f (by simp)
        have inner : ∀ (rest : List Obj) (acc : List ScoredRel),
            (∀ r ∈ acc, GoodRel content id r) →
            ∀ r ∈ rest.foldl (fun acc item =>
              if ! jsStrictEq (jget item "id") (JVal.str id) && truthy (jget item f) then
                if refHit (refsOf (jget item f)) id then addOrBump acc item "relation" else acc
              else acc) acc, GoodRel content id r := by
          intro rest
          induction rest with
          | nil => intro acc hacc; exact hacc
          | cons x xs ihx =>
              intro acc hacc
              simp only [List.foldl_cons]
              apply ihx
              by_cases hg : (! jsStrictEq (jget x "id") (JVal.str id)
                  && truthy (jget x f)) = true
              · rw [if_pos hg]
                by_cases hh : refHit (refsOf (jget x f)) id = true
                · rw [if_pos hh]
                  rw [Bool.and_eq_true] at hg
                  exact addOrBump_inv content id acc x "relation" hacc
                    (Or.inr (Or.inr ⟨f, hf, hg.2, hh⟩))
                · rw [if_neg hh]
                  exact hacc
              · rw [if_neg hg]
                exact hacc
        exact inner items acc hacc
  exact main relationFields (fun f hf => hf) acc hacc

theorem relatedEntries_inv (content : Obj) (id : String) (items : List Obj) :
    ∀ r ∈ relatedEntries content id items, GoodRel content id r := by
  unfold relatedEntries
  exact relPhase3_inv content id items _
    (relPhase2_inv content id items _ (relPhase1_inv content id items))

theorem paginateItems_subset (l : List α) (limit : Option Nat) (offset : Nat) :
    ∀ x ∈ paginateItems l limit offset, x ∈ l := by
  intro x hx
  unfold paginateItems at hx
  cases limit with
  | none => exact List.mem_of_mem_drop hx
  | some n => exact List.mem_of_mem_drop (List.mem_of_mem_take hx)

/-! ## Trace lemmas -/

theorem isRename_false_of_mem_listVersionsTrace (type id : String) (d : VersionDir)
    (op : FsOp) (h : op ∈ listVersionsTrace type id d) : op.isRename = false := by
  simp only [listVersionsTrace, List.mem_append, List.mem_cons, List.mem_singleton,
    List.mem_map, List.not_mem_nil, or_false] at h
  rcases h with (rfl | rfl) | ⟨e, -, rfl⟩ <;> rfl

theorem isRename_false_of_mem_cleanupTrace (type id : String) (d : VersionDir)
    (keepCount : Nat) (op : FsOp) (h : op ∈ cleanupTrace type id d keepCount) :
    op.isRename = false := by
  simp only [cleanupTrace, List.mem_append] at h
  rcases h with h | h
  · exact isRename_false_of_mem_listVersionsTrace type id d op h
  · by_cases hlen : (listVersions d).length ≤ keepCount
    · simp [hlen] at h
    · simp only [hlen, if_neg, if_false, List.mem_map] at h
      rcases h with ⟨v, -, rfl⟩
      rfl

theorem isRename_false_of_mem_createVersionTrace (type id : String) (d : VersionDir)
    (content : Obj) (t1 t2 : Millis) (op : FsOp)
    (h : op ∈ createVersionTrace type id d content t1 t2) : op.isRename = false := by
  simp only [createVersionTrace, List.mem_append, List.mem_cons, List.mem_singleton,
    List.not_mem_nil, or_false] at h
  rcases h with (rfl | rfl) | h
  · rfl
  · rfl
  · exact isRename_false_of_mem_cleanupTrace type id _ 10 op h

/-! ## Claim theorems -/

/-- A current record used in several concrete instantiations below. -/
def exRecord : Obj :=
  [("id", JVal.str "a"), ("status", JVal.str "draft"),
   ("createdAt", JVal.str (isoStr 1)), ("updatedAt", JVal.str (isoStr 1))]

/-- C1 counterexample: the claim says every update persists the new
record by writing a temporary file and renaming it over the target; for
a concrete update of an existing record, the operation trace contains no
rename at all, and the record file is written directly at its target
path. -/
theorem updateContent_trace_counterexample :
    (updateContentTrace "posts" "a" ⟨some exRecord, []⟩ 1 2).any FsOp.isRename = false
      ∧ FsOp.writeJson (recordPath "posts" "a")
          ∈ updateContentTrace "posts" "a" ⟨some exRecord, []⟩ 1 2 := by
  constructor
  · rfl
  · decide

/-- C1 (amended): `updateContent` persists the merged record by a single
direct `fs.writeJson` at the target path — the final filesystem
operation of the update — and performs no rename anywhere, so the
atomic temp-file-then-rename scheme described by the spec is not what
the code does. -/
theorem updateContent_trace_direct_write (type id : String) (st : RecState)
    (existing : Obj) (t1 t2 : Millis) (hcur : st.cur = some existing) :
    (∀ op ∈ updateContentTrace type id st t1 t2, op.isRename = false)
      ∧ (updateContentTrace type id st t1 t2).getLast?
          = some (FsOp.writeJson (recordPath type id)) := by
  constructor
  · intro op hop
    rw [updateContentTrace, hcur] at hop
    simp only [List.mem_append, List.mem_cons, List.mem_singleton, List.not_mem_nil,
      or_false] at hop
    rcases hop with ((rfl | rfl) | h) | rfl
    · rfl
    · rfl
    · exact isRename_false_of_mem_createVersionTrace type id _ _ t1 t2 op h
    · rfl
  · simp only [updateContentTrace, hcur]
    rw [List.getLast?_append]
    rfl

/-- C1 witness. -/
theorem updateContent_trace_direct_write_witness :
    (∀ op ∈ updateContentTrace "posts" "a" ⟨some exRecord, []⟩ 1 2, op.isRename = false)
      ∧ (updateContentTrace "posts" "a" ⟨some exRecord, []⟩ 1 2).getLast?
          = some (FsOp.writeJson (recordPath "posts" "a")) :=
  updateContent_trace_direct_write "posts" "a" ⟨some exRecord, []⟩ exRecord 1 2 rfl

/-- C2: `deleteContent` on a `(type, id)` with no current record —
fs-extra's `remove` resolves successfully on a missing path, so the
`ENOENT → false` branch is dead code and the function reports `true`
("existed") instead of the claimed `false`. -/
theorem deleteContent_missing_returns_true :
    deleteContent ⟨none, []⟩ = Except.ok (⟨none, []⟩, true) := rfl

/-- C3: at the failing input, the loose-equality filter does not match:
`true == "true"` is `false` in JavaScript (the boolean converts to the
number `1`, the string to `NaN`), contradicting the documented intent
of the `eq` operator; `ne` is its exact negation there. -/
theorem matchesCondition_eq_bool_true_vs_str_true :
    matchesCondition (JVal.bool true) "eq" (JVal.str "true") = false
      ∧ matchesCondition (JVal.bool true) "ne" (JVal.str "true") = true := by
  constructor <;> decide

/-- An item without the sort field. -/
def exNoX : Obj := [("id", JVal.str "a")]

/-- An item with a present (string) sort-field value. -/
def exWithX : Obj := [("id", JVal.str "b"), ("x", JVal.str "v")]

/-- C4 counterexample: sorting descending, an item with a missing sort
key stays *before* the item with a present value (the comparator
returns `-1` for a missing left operand when descending), refuting
"missing values always sort after present values, irrespective of
direction". -/
theorem sortItems_desc_missing_first :
    sortItems [exNoX, exWithX] "x" "desc" = [exNoX, exWithX]
      ∧ missingAt "x" exNoX = true
      ∧ missingAt "x" exWithX = false
      ∧ ¬ Partitioned (missingAt "x") (sortItems [exNoX, exWithX] "x" "desc") := by
  refine ⟨rfl, rfl, rfl, ?_⟩
  rintro ⟨us, vs, heq, hus, hvs⟩
  have heq2 : ([exNoX, exWithX] : List Obj) = us ++ vs := heq
  cases us with
  | nil =>
      simp only [List.nil_append] at heq2
      have hmem : exWithX ∈ vs := by rw [← heq2]; simp
      have hv := hvs exWithX hmem
      rw [(rfl : missingAt "x" exWithX = false)] at hv
      cases hv
  | cons u us1 =>
      have hu : exNoX = u := by
        injection heq2 with h1 h2
      have hm := hus u (by simp)
      rw [← hu, (rfl : missingAt "x" exNoX = true)] at hm
      cases hm

/-- C4 (amended): `sortItems` returns a permutation of its input; items
with a missing/`null` sort key are placed *after* all present-valued
items when ascending but *before* them when descending; adjacent
present-valued items respect the relational comparison (reversed when
descending); and — whenever the comparator is consistent (total and
transitive) on the input, as ECMA-262 requires for a deterministic
result — the sort is stable: key-tied items keep their original
relative order. -/
theorem sortItems_order_properties (items : List Obj) (field direction : String)
    (hf : field ≠ "") :
    (sortItems items field direction).Perm items
      ∧ (direction = "desc" →
          Partitioned (fun o => ! missingAt field o) (sortItems items field direction))
      ∧ (direction ≠ "desc" →
          Partitioned (missingAt field) (sortItems items field direction))
      ∧ (sortItems items field direction).Chain' (fun a b =>
          missingAt field a = false → missingAt field b = false →
            sortCompare field (decide (direction = "desc")) a b ≤ 0)
      ∧ ((∀ a b, a ∈ items → b ∈ items →
            (sortCompare field (decide (direction = "desc")) a b ≤ 0
              ∨ sortCompare field (decide (direction = "desc")) b a ≤ 0)) →
          (∀ a b c, a ∈ items → b ∈ items → c ∈ items →
            sortCompare field (decide (direction = "desc")) a b ≤ 0 →
            sortCompare field (decide (direction = "desc")) b c ≤ 0 →
            sortCompare field (decide (direction = "desc")) a c ≤ 0) →
          ((stableSortLe (fun p q : Nat × Obj =>
                decide (sortCompare field (decide (direction = "desc")) p.2 q.2 ≤ 0))
                items.enum).map Prod.snd
              = sortItems items field direction
            ∧ (stableSortLe (fun p q : Nat × Obj =>
                decide (sortCompare field (decide (direction = "desc")) p.2 q.2 ≤ 0))
                items.enum).Pairwise (fun p q =>
                  sortCompare field (decide (direction = "desc")) p.2 q.2 = 0 →
                    p.1 < q.1))) := by
  have hsort : sortItems items field direction
      = jsSortBy (sortCompare field (decide (direction = "desc"))) items := by
    unfold sortItems
    rw [if_neg hf]
  refine ⟨?_, ?_, ?_, ?_, ?_⟩
  · rw [hsort]
    exact jsSortBy_perm _ items
  · intro hd
    rw [hsort]
    have hdd : decide (direction = "desc") = true := by simp [hd]
    refine stableSortLe_partition _ _ ?_ ?_ items
    · intro a b ha hb
      rw [Bool.not_eq_true'] at ha
      rw [Bool.not_eq_false'] at hb
      rw [decide_eq_false_iff_not]
      rw [sortCompare_present_missing field _ a b ha hb, hdd]
      simp
    · intro a b ha hb
      rw [Bool.not_eq_false'] at ha
      rw [decide_eq_true_eq]
      rw [sortCompare_missing_left field _ a b ha, hdd]
      simp
  · intro hd
    rw [hsort]
    have hdd : decide (direction = "desc") = false := by simp [hd]
    refine stableSortLe_partition _ _ ?_ ?_ items
    · intro a b ha hb
      rw [decide_eq_false_iff_not]
      rw [sortCompare_missing_left field _ a b ha, hdd]
      simp
    · intro a b ha hb
      rw [decide_eq_true_eq]
      rw [sortCompare_present_missing field _ a b ha hb, hdd]
      simp
  · rw [hsort]
    refine stableSortLe_chain _ _ ?_ ?_ items
    · intro a b hab _ _
      exact of_decide_eq_true hab
    · intro a b hba hma hmb
      unfold missingAt at hma hmb
      exact sortCompare_le_of_gt_rev field _ a b hma hmb (of_decide_eq_false hba)
  · intro htot htr
    constructor
    · rw [hsort]
      have hmap := stableSortLe_map_snd
        (fun a b => decide (sortCompare field (decide (direction = "desc")) a b ≤ 0))
        items.enum
      rw [List.enum_map_snd] at hmap
      exact hmap
    · have hstab := stableSortLe_stable
        (fun a b => decide (sortCompare field (decide (direction = "desc")) a b ≤ 0))
        (fun o => o ∈ items)
        (by
          intro a b ha hb
          rcases htot a b ha hb with h | h
          · exact Or.inl (decide_eq_true h)
          · exact Or.inr (decide_eq_true h))
        (by
          intro a b c ha hb hc hab hbc
          exact decide_eq_true (htr a b c ha hb hc (of_decide_eq_true hab)
            (of_decide_eq_true hbc)))
        items.enum
        (by
          intro p hp
          have : p.2 ∈ items.enum.map Prod.snd := List.mem_map_of_mem Prod.snd hp
          rwa [List.enum_map_snd] at this)
        (enum_pairwise_fst_lt items)
      refine hstab.imp ?_
      intro p q h h0
      have h1 : sortCompare field (decide (direction = "desc")) q.2 p.2 = 0 :=
        sortCompare_zero_symm _ _ _ _ h0
      exact h (decide_eq_true (by rw [h0])) (decide_eq_true (by rw [h1]))

/-- C4 witness. -/
theorem sortItems_order_properties_witness :
    (sortItems [exWithX, exNoX] "x" "asc").Perm [exWithX, exNoX]
      ∧ ("asc" = "desc" →
          Partitioned (fun o => ! missingAt "x" o) (sortItems [exWithX, exNoX] "x" "asc"))
      ∧ ("asc" ≠ "desc" →
          Partitioned (missingAt "x") (sortItems [exWithX, exNoX] "x" "asc"))
      ∧ (sortItems [exWithX, exNoX] "x" "asc").Chain' (fun a b =>
          missingAt "x" a = false → missingAt "x" b = false →
            sortCompare "x" (decide ("asc" = "desc")) a b ≤ 0)
      ∧ ((∀ a b, a ∈ [exWithX, exNoX] → b ∈ [exWithX, exNoX] →
            (sortCompare "x" (decide ("asc" = "desc")) a b ≤ 0
              ∨ sortCompare "x" (decide ("asc" = "desc")) b a ≤ 0)) →
          (∀ a b c, a ∈ [exWithX, exNoX] → b ∈ [exWithX, exNoX] → c ∈ [exWithX, exNoX] →
            sortCompare "x" (decide ("asc" = "desc")) a b ≤ 0 →
            sortCompare "x" (decide ("asc" = "desc")) b c ≤ 0 →
            sortCompare "x" (decide ("asc" = "desc")) a c ≤ 0) →
          ((stableSortLe (fun p q : Nat × Obj =>
                decide (sortCompare "x" (decide ("asc" = "desc")) p.2 q.2 ≤ 0))
                ([exWithX, exNoX] : List Obj).enum).map Prod.snd
              = sortItems [exWithX, exNoX] "x" "asc"
            ∧ (stableSortLe (fun p q : Nat × Obj =>
                decide (sortCompare "x" (decide ("asc" = "desc")) p.2 q.2 ≤ 0))
                ([exWithX, exNoX] : List Obj).enum).Pairwise (fun p q =>
                  sortCompare "x" (decide ("asc" = "desc")) p.2 q.2 = 0 →
                    p.1 < q.1))) :=
  sortItems_order_properties [exWithX, exNoX] "x" "asc" (by decide)

/-- A canonical two-snapshot version directory used as a concrete
instance below. -/
def exVdir : VersionDir :=
  [("v" ++ isoStr 1, versionSnapshot [("title", JVal.str "t")] 1 1),
   ("v" ++ isoStr 2, versionSnapshot [("title", JVal.str "t")] 2 2)]

/-- C7: after `createVersion` on a canonical version directory (file
stems match stored `versionId`s and are distinct, all `versionedAt`
timestamps distinct, the new stem fresh), at most `keepCount = 10`
snapshots remain — exactly `min (|d|+1) 10` — every survivor is one of
the written files, and every pruned snapshot is strictly older (smaller
`versionedAt`) than every survivor: the survivors are exactly the 10
most recently versioned snapshots. -/
theorem createVersion_retention (d : VersionDir) (content : Obj) (t1 t2 : Millis)
    (hfresh : ∀ e ∈ d, e.1 ≠ "v" ++ isoStr t1)
    (hcanon : ∀ e ∈ d, vidStr e.2 = e.1)
    (hkeys : (d.map Prod.fst).Nodup)
    (htimes : ((d ++ [("v" ++ isoStr t1, versionSnapshot content t1 t2)]).map
        (fun e => versionTimeOf e.2)).Nodup) :
    ((createVersion d content t1 t2).1.length = min (d.length + 1) 10)
      ∧ (∀ e ∈ (createVersion d content t1 t2).1,
          e ∈ d ++ [("v" ++ isoStr t1, versionSnapshot content t1 t2)])
      ∧ (∀ e ∈ (createVersion d content t1 t2).1,
          ∀ f ∈ d ++ [("v" ++ isoStr t1, versionSnapshot content t1 t2)],
            f ∉ (createVersion d content t1 t2).1 →
            versionTimeOf f.2 < versionTimeOf e.2) := by
  have hall : dirWrite d ("v" ++ isoStr t1) (versionSnapshot content t1 t2)
      = d ++ [("v" ++ isoStr t1, versionSnapshot content t1 t2)] :=
    dirWrite_fresh _ _ _ hfresh
  have hres : (createVersion d content t1 t2).1
      = cleanupOldVersions (d ++ [("v" ++ isoStr t1, versionSnapshot content t1 t2)]) 10 := by
    unfold createVersion
    rw [hall]
  have hcanonAll : ∀ e ∈ d ++ [("v" ++ isoStr t1, versionSnapshot content t1 t2)],
      vidStr e.2 = e.1 := by
    intro e he
    rcases List.mem_append.mp he with h | h
    · exact hcanon e h
    · rw [List.mem_singleton] at h
      rw [h]
      exact vidStr_versionSnapshot content t1 t2
  have hkeysAll : ((d ++ [("v" ++ isoStr t1, versionSnapshot content t1 t2)]).map
      Prod.fst).Nodup := by
    rw [List.map_append, List.nodup_append]
    refine ⟨hkeys, List.nodup_singleton _, ?_⟩
    intro a ha hb
    simp only [List.map_cons, List.map_nil, List.mem_singleton] at hb
    obtain ⟨e, he, hea⟩ := List.mem_map.mp ha
    exact hfresh e he (by rw [hea, hb])
  have hmain := cleanup_retention
    (d ++ [("v" ++ isoStr t1, versionSnapshot content t1 t2)]) 10 hcanonAll hkeysAll htimes
  have hlen2 : (d ++ [("v" ++ isoStr t1, versionSnapshot content t1 t2)]).length
      = d.length + 1 := by
    rw [List.length_append, List.length_singleton]
  rw [hres]
  refine ⟨?_, hmain.2.1, hmain.2.2⟩
  rw [hmain.1, hlen2]

/-- C7 witness. -/
theorem createVersion_retention_witness :
    ((createVersion exVdir [("title", JVal.str "t")] 3 3).1.length = min (exVdir.length + 1) 10)
      ∧ (∀ e ∈ (createVersion exVdir [("title", JVal.str "t")] 3 3).1,
          e ∈ exVdir ++ [("v" ++ isoStr 3, versionSnapshot [("title", JVal.str "t")] 3 3)])
      ∧ (∀ e ∈ (createVersion exVdir [("title", JVal.str "t")] 3 3).1,
          ∀ f ∈ exVdir ++ [("v" ++ isoStr 3, versionSnapshot [("title", JVal.str "t")] 3 3)],
            f ∉ (createVersion exVdir [("title", JVal.str "t")] 3 3).1 →
            versionTimeOf f.2 < versionTimeOf e.2) :=
  createVersion_retention exVdir [("title", JVal.str "t")] 3 3
    (by decide) (by decide) (by decide) (by decide)

/-- A current record with a field (`extra`) added after the version
below was taken. -/
def exRestoreCur : Obj := exRecord ++ [("extra", JVal.str "x")]

/-- A stored version snapshot that predates the `extra` field. -/
def exRestoreVer : Obj :=
  [("id", JVal.str "a"), ("status", JVal.str "draft"),
   ("createdAt", JVal.str (isoStr 1)), ("updatedAt", JVal.str (isoStr 1)),
   ("versionId", JVal.str "v1"), ("versionedAt", JVal.str (isoStr 1))]

/-- C8 counterexample: restoring a version that lacks a field the
current record has (`extra`) keeps that field — `updateContent` merges
the version over the current record, it does not replace it — so the
restored record's fields do not equal the version's fields minus the
version-only fields. -/
theorem restore_keeps_unversioned_field :
    (restoreVersion ⟨some exRestoreCur, [("v1", exRestoreVer)]⟩ "a" "v1" 7 8 9).map
        (fun p => jget p.2 "extra") = some (JVal.str "x")
      ∧ jget (removeKeys exRestoreVer ["versionId", "versionedAt"]) "extra" = JVal.undef :=
  ⟨rfl, rfl⟩

/-- C8 (amended): restoring version `v` of an existing record merges
`v` minus its version-only fields over the current record: a
non-special field takes `v`'s value when `v` has it and otherwise keeps
the current record's value; `id` is forced and `updatedAt` set to the
restore time; a `status` stored in `v` is restored.  When fewer than 10
snapshots exist (so retention does not prune) and the new version stem
is fresh, the history afterwards is exactly the old history plus one
new snapshot, and that snapshot captures the pre-restore record on
every non-version-only field. -/
theorem restoreVersion_spec (st : RecState) (existing version : Obj)
    (id vid : String) (now t1 t2 : Millis)
    (hcur : st.cur = some existing)
    (hver : getVersion st.versions vid = some version)
    (hlen : st.versions.length < 10)
    (hfresh : ∀ e ∈ st.versions, e.1 ≠ "v" ++ isoStr t1) :
    ∃ st1 restored, restoreVersion st id vid now t1 t2 = some (st1, restored)
      ∧ (∀ k, k ∉ (["id", "status", "updatedAt", "publishedAt",
            "versionId", "versionedAt"] : List String) →
          jget restored k
            = (if hasKey version k then jget version k else jget existing k))
      ∧ jget restored "id" = JVal.str id
      ∧ jget restored "updatedAt" = JVal.str (isoStr now)
      ∧ (isUndef (jget (removeKeys version ["versionId", "versionedAt"]) "status") = false →
          jget restored "status" = jget version "status")
      ∧ st1.versions = st.versions ++ [("v" ++ isoStr t1, versionSnapshot existing t1 t2)]
      ∧ (∀ k, k ≠ "versionId" → k ≠ "versionedAt" →
          jget (versionSnapshot existing t1 t2) k = jget existing k) := by
  have hall : dirWrite st.versions ("v" ++ isoStr t1) (versionSnapshot existing t1 t2)
      = st.versions ++ [("v" ++ isoStr t1, versionSnapshot existing t1 t2)] :=
    dirWrite_fresh _ _ _ hfresh
  have hnew : (createVersion st.versions existing t1 t2).1
      = st.versions ++ [("v" ++ isoStr t1, versionSnapshot existing t1 t2)] := by
    unfold createVersion
    rw [hall]
    unfold cleanupOldVersions
    rw [if_pos]
    rw [(listVersions_perm _).length_eq, List.length_map, List.length_append,
      List.length_singleton]
    omega
  refine ⟨⟨some (mergeUpdate existing (removeKeys version ["versionId", "versionedAt"]) id now),
      (createVersion st.versions existing t1 t2).1⟩,
    mergeUpdate existing (removeKeys version ["versionId", "versionedAt"]) id now,
    ?_, ?_, ?_, ?_, ?_, ?_, ?_⟩
  · unfold restoreVersion
    rw [hcur, hver]
    unfold updateContent
    rw [hcur]
  · intro k hk
    simp only [List.mem_cons, List.not_mem_nil, or_false, not_or] at hk
    obtain ⟨h1, h2, h3, h4, h5, h6⟩ := hk
    rw [jget_mergeUpdate]
    rw [if_neg h1, if_neg h2, if_neg h3, if_neg (by simp [h4])]
    rw [hasKey_removeKeys, jget_removeKeys]
    rw [show (["versionId", "versionedAt"] : List String).contains k = false by
      simp [h5, h6]]
    simp
  · rw [jget_mergeUpdate]
    simp
  · rw [jget_mergeUpdate]
    simp
  · intro hst
    rw [jget_mergeUpdate]
    rw [if_neg (by decide), if_pos rfl]
    unfold newStatusOf
    rw [hst]
    rw [jget_removeKeys]
    simp
  · exact hnew
  · intro k h1 h2
    unfold versionSnapshot
    rw [jget_spread]
    rw [show hasKey [("versionId", JVal.str ("v" ++ isoStr t1)),
        ("versionedAt", JVal.str (isoStr t2))] k = false by
      simp [hasKey_cons, hasKey_nil, Ne.symm h1, Ne.symm h2]]
    simp

/-- C8 witness. -/
theorem restoreVersion_spec_witness :
    ∃ st1 restored,
      restoreVersion ⟨some exRestoreCur, [("v1", exRestoreVer)]⟩ "a" "v1" 7 8 9
          = some (st1, restored)
      ∧ (∀ k, k ∉ (["id", "status", "updatedAt", "publishedAt",
            "versionId", "versionedAt"] : List String) →
          jget restored k
            = (if hasKey exRestoreVer k then jget exRestoreVer k else jget exRestoreCur k))
      ∧ jget restored "id" = JVal.str "a"
      ∧ jget restored "updatedAt" = JVal.str (isoStr 7)
      ∧ (isUndef (jget (removeKeys exRestoreVer ["versionId", "versionedAt"]) "status")
            = false →
          jget restored "status" = jget exRestoreVer "status")
      ∧ st1.versions = [("v1", exRestoreVer)]
          ++ [("v" ++ isoStr 8, versionSnapshot exRestoreCur 8 9)]
      ∧ (∀ k, k ≠ "versionId" → k ≠ "versionedAt" →
          jget (versionSnapshot exRestoreCur 8 9) k = jget exRestoreCur k) :=
  restoreVersion_spec ⟨some exRestoreCur, [("v1", exRestoreVer)]⟩ exRestoreCur exRestoreVer
    "a" "v1" 7 8 9 rfl rfl (by decide) (by decide)

/-- C10: every item returned by `getRelatedContent` was scored with at
least one point, for at least one of the three recognized reasons — a
shared tag, an equal category, or a back-reference to the target id
through one of the relation fields — so zero-score candidates never
appear, and the reported total counts exactly the scored candidates. -/
theorem getRelatedContent_scored (c : Obj) (id : String) (items : List Obj)
    (limit : Option Nat) (offset : Nat) :
    (getRelatedContent (some c) id items limit offset).2 = (relatedEntries c id items).length
      ∧ ∀ o ∈ (getRelatedContent (some c) id items limit offset).1,
          ∃ r ∈ relatedEntries c id items, r.item = o ∧ 1 ≤ r.score
            ∧ (SharesTag c o ∨ SameCategory c o ∨ RefersTo o id) := by
  constructor
  · show ((jsSortBy (fun a b => b.score - a.score) (relatedEntries c id items)).map
        (fun r => r.item)).length = _
    rw [List.length_map, (jsSortBy_perm _ _).length_eq]
  · intro o ho
    have ho2 := paginateItems_subset _ limit offset o ho
    obtain ⟨r, hr, hro⟩ := List.mem_map.mp ho2
    have hrm : r ∈ relatedEntries c id items := (jsSortBy_perm _ _).mem_iff.mp hr
    have hg := relatedEntries_inv c id items r hrm
    exact ⟨r, hrm, hro, hg.1, hro ▸ hg.2⟩

/-- C5 counterexample: a data payload that explicitly carries
`createdAt` replaces the stored `createdAt` (spread merge), so the
claimed preservation for *every* payload fails. -/
theorem updateContent_createdAt_counterexample :
    ((updateContent ⟨some exRecord, []⟩ "a" [("createdAt", JVal.str (isoStr 2))] 3 1 2).2).map
        (fun u => jget u "createdAt") = some (JVal.str (isoStr 2))
      ∧ jget exRecord "createdAt" = JVal.str (isoStr 1)
      ∧ JVal.str (isoStr 2) ≠ JVal.str (isoStr 1) := by
  refine ⟨rfl, rfl, ?_⟩
  intro h
  rw [JVal.str.injEq] at h
  exact absurd (isoStr_injective h) (by decide)

/-- C5 (amended): for every update of an existing record whose payload
does not itself carry `createdAt`, the result keeps the prior
`createdAt`; `updatedAt` becomes the update time, hence is at least the
prior `updatedAt` whenever the clock has not gone backwards. -/
theorem updateContent_createdAt_updatedAt (st : RecState) (existing data : Obj)
    (id : String) (now t0 t1 t2 : Millis)
    (hcur : st.cur = some existing)
    (hnd : hasKey data "createdAt" = false)
    (hu0 : jget existing "updatedAt" = JVal.str (isoStr t0))
    (hclock : t0 ≤ now) :
    ∃ u, (updateContent st id data now t1 t2).2 = some u
      ∧ jget u "createdAt" = jget existing "createdAt"
      ∧ jsDateMs (jget u "updatedAt") = now
      ∧ jsDateMs (jget existing "updatedAt") ≤ jsDateMs (jget u "updatedAt") := by
  refine ⟨mergeUpdate existing data id now, by simp [updateContent, hcur], ?_, ?_, ?_⟩
  · rw [jget_mergeUpdate]
    simp [hnd]
  · rw [jget_mergeUpdate]
    simp [jsDateMs_isoStr]
  · rw [jget_mergeUpdate, hu0]
    simp [jsDateMs_isoStr, hclock]

/-- C5 witness. -/
theorem updateContent_createdAt_updatedAt_witness :
    ∃ u, (updateContent ⟨some exRecord, []⟩ "a" [("title", JVal.str "t")] 5 1 2).2 = some u
      ∧ jget u "createdAt" = jget exRecord "createdAt"
      ∧ jsDateMs (jget u "updatedAt") = 5
      ∧ jsDateMs (jget exRecord "updatedAt") ≤ jsDateMs (jget u "updatedAt") :=
  updateContent_createdAt_updatedAt ⟨some exRecord, []⟩ exRecord
    [("title", JVal.str "t")] "a" 5 1 1 2 rfl (by decide) rfl (by decide)

/-- C6: the `publishedAt` policy of `updateContent` on an existing,
well-formed record (a stored `publishedAt` is absent, `null`, or a
truthy timestamp string): an explicitly supplied `data.publishedAt` wins
outright; otherwise a transition to `published` with no stored value
stamps the current time; otherwise the stored value (or its absence) is
carried over unchanged. -/
theorem updateContent_publishedAt_policy (st : RecState) (existing data : Obj)
    (id : String) (now t1 t2 : Millis)
    (hcur : st.cur = some existing)
    (hjson : hasKey data "publishedAt" = true → isUndef (jget data "publishedAt") = false)
    (hwf : jget existing "publishedAt" = JVal.undef ∨ jget existing "publishedAt" = JVal.null
        ∨ truthy (jget existing "publishedAt") = true) :
    ∃ u, (updateContent st id data now t1 t2).2 = some u
      ∧ (hasKey data "publishedAt" = true → jget u "publishedAt" = jget data "publishedAt")
      ∧ (hasKey data "publishedAt" = false →
          jsStrictEq (newStatusOf existing data) (JVal.str "published") = true →
          (jget existing "publishedAt" = JVal.undef ∨ jget existing "publishedAt" = JVal.null) →
          jget u "publishedAt" = JVal.str (isoStr now))
      ∧ (hasKey data "publishedAt" = false →
          ¬ (jsStrictEq (newStatusOf existing data) (JVal.str "published") = true
              ∧ (jget existing "publishedAt" = JVal.undef
                  ∨ jget existing "publishedAt" = JVal.null)) →
          jget u "publishedAt" = jget existing "publishedAt") := by
  refine ⟨mergeUpdate existing data id now, by simp [updateContent, hcur], ?_, ?_, ?_⟩
  · intro hk
    have hnu := hjson hk
    have hpub : pubOf existing data now = jget data "publishedAt" := by
      unfold pubOf
      simp [hnu]
    rw [jget_mergeUpdate, hpub]
    by_cases ht : truthy (jget data "publishedAt") = true
    · simp [ht]
    · simp only [Bool.not_eq_true] at ht
      simp [ht, hk]
  · intro hk hstat hmiss
    have hval : jget data "publishedAt" = JVal.undef := jget_eq_undef_of_hasKey_false _ _ hk
    have hfalsy : truthy (jget existing "publishedAt") = false := by
      rcases hmiss with h | h <;> rw [h] <;> rfl
    have hpub : pubOf existing data now = JVal.str (isoStr now) := by
      unfold pubOf
      simp [hval, isUndef, hstat, hfalsy]
    rw [jget_mergeUpdate, hpub]
    simp [truthy, isoStr_ne_empty now]
  · intro hk hnot
    have hval : jget data "publishedAt" = JVal.undef := jget_eq_undef_of_hasKey_false _ _ hk
    rcases hwf with h0 | h0 | h0
    · have hstat : jsStrictEq (newStatusOf existing data) (JVal.str "published") = false := by
        cases hs : jsStrictEq (newStatusOf existing data) (JVal.str "published") with
        | false => rfl
        | true => exact absurd ⟨hs, Or.inl h0⟩ hnot
      have hpub : pubOf existing data now = jget existing "publishedAt" := by
        unfold pubOf
        simp [hval, isUndef, hstat]
      rw [jget_mergeUpdate, hpub, h0]
      simp [truthy, hk]
    · have hstat : jsStrictEq (newStatusOf existing data) (JVal.str "published") = false := by
        cases hs : jsStrictEq (newStatusOf existing data) (JVal.str "published") with
        | false => rfl
        | true => exact absurd ⟨hs, Or.inr h0⟩ hnot
      have hpub : pubOf existing data now = jget existing "publishedAt" := by
        unfold pubOf
        simp [hval, isUndef, hstat]
      rw [jget_mergeUpdate, hpub, h0]
      simp [truthy, hk]
    · have hpub : pubOf existing data now = jget existing "publishedAt" := by
        unfold pubOf
        simp [hval, isUndef, h0]
      rw [jget_mergeUpdate, hpub]
      simp [h0]

/-- C6 witness: a draft-to-published transition with no supplied
`publishedAt` and no stored value stamps the update time. -/
theorem updateContent_publishedAt_policy_witness :
    ∃ u, (updateContent ⟨some exRecord, []⟩ "a" [("status", JVal.str "published")] 5 1 2).2
        = some u
      ∧ (hasKey [("status", JVal.str "published")] "publishedAt" = true →
          jget u "publishedAt" = jget [("status", JVal.str "published")] "publishedAt")
      ∧ (hasKey [("status", JVal.str "published")] "publishedAt" = false →
          jsStrictEq (newStatusOf exRecord [("status", JVal.str "published")])
              (JVal.str "published") = true →
          (jget exRecord "publishedAt" = JVal.undef ∨ jget exRecord "publishedAt" = JVal.null) →
          jget u "publishedAt" = JVal.str (isoStr 5))
      ∧ (hasKey [("status", JVal.str "published")] "publishedAt" = false →
          ¬ (jsStrictEq (newStatusOf exRecord [("status", JVal.str "published")])
                (JVal.str "published") = true
              ∧ (jget exRecord "publishedAt" = JVal.undef
                  ∨ jget exRecord "publishedAt" = JVal.null)) →
          jget u "publishedAt" = jget exRecord "publishedAt") :=
  updateContent_publishedAt_policy ⟨some exRecord, []⟩ exRecord
    [("status", JVal.str "published")] "a" 5 1 2 rfl
    (by intro h; simp [hasKey, List.find?] at h)
    (Or.inl rfl)

end FlatCms
